import Mathlib

/-!
Shallow embedding of the audio-fingerprinting core
(`app/audio_fingerprinter.py` and `app/fingerprint.py`):
constellation peak extraction, fuzzy composite hashing, the inverted
fingerprint index, and the offset-voting matcher.

Real numbers (times in seconds, frequencies in Hz, spectrogram
magnitudes) are modelled as rationals (`ℚ`); machine floats are not
modelled bit-for-bit, the arithmetic the code performs is modelled
exactly.  Python dictionaries (`defaultdict(list)`) are modelled as
association lists that preserve key-insertion order, which is the
observable iteration order in Python.
-/

namespace AF

/-- Python `int(q)` on a real value: truncation toward zero. -/
def pyint (q : ℚ) : ℤ := if q < 0 then ⌈q⌉ else ⌊q⌋

/-- Python `a % b` for `b > 0` (sign of the result follows `b`):
`a % b = a - b * floor (a / b)`. -/
def pymod (a b : ℚ) : ℚ := a - b * ⌊a / b⌋

/-- Stable insertion of `x` into the already-sorted list, after every
element `y` with `le y x` (so equal elements keep their original order). -/
def sinsert (le : α → α → Bool) (x : α) : List α → List α
  | [] => [x]
  | y :: ys => if le y x then y :: sinsert le x ys else x :: y :: ys

/-- Python `sorted(l, key=...)` / `list.sort`: a stable sort by the key.
Python's Timsort is stable; any stable sort produces the same list, so we
model it with a stable insertion sort (structurally recursive, hence
evaluable by the kernel). -/
def py_sorted (le : α → α → Bool) (l : List α) : List α :=
  l.foldl (fun acc x => sinsert le x acc) []

/-- Python slice `l[i:]` (start index may be negative: then it counts
from the end of the list, clamped at 0). -/
def pyslice_from (l : List α) (i : ℤ) : List α :=
  if i < 0 then l.drop ((l.length : ℤ) + i).toNat else l.drop i.toNat

/-- A constellation peak `[freq_idx, time_idx, amplitude]` as produced by
`AudioFingerprinter.extract_peaks`. -/
structure Peak where
  fi : ℕ
  ti : ℕ
  amp : ℚ
deriving DecidableEq, Repr

/-- A fingerprint tuple `(hash_digest, audio_id, anchor_time)`. -/
structure HashRecord where
  digest : ℤ
  audio_id : ℤ
  anchor_time : ℚ
deriving DecidableEq, Repr

/-- `FUZ_F_HZ = 20.0`: frequency fuzz bucket width in Hz. -/
def FUZ_F_HZ : ℚ := 20

/-- `FUZ_DT_S = 0.02`: time fuzz bucket width in seconds. -/
def FUZ_DT_S : ℚ := 2 / 100

/-- `AudioFingerprinter._make_fuzzy_hash` (identical to the module-level
`make_fuzzy_hash` in `fingerprint.py`):
quantize `(f1, f2, Δt)` into coarse buckets and pack them into one
integer.  `f1_q // W` is Python float floor division, an exact integer
here because `f1_q` is the multiple `W * ⌊f1/W⌋` of `W`; `int(...)` of
that integral value is exact, so each bucket is an `Int.floor`. -/
def make_fuzzy_hash (f1_hz f2_hz dt_s : ℚ) : ℤ :=
  let f1_q := f1_hz - pymod f1_hz FUZ_F_HZ
  let f2_q := f2_hz - pymod f2_hz FUZ_F_HZ
  let dt_q := dt_s - pymod dt_s FUZ_DT_S
  let b1 := ⌊f1_q / FUZ_F_HZ⌋
  let b2 := ⌊f2_q / FUZ_F_HZ⌋
  let b3 := ⌊dt_q / FUZ_DT_S⌋
  (b3 * 10 ^ 6) + (b2 * 10 ^ 3) + b1

/-! ## Python dictionaries

`defaultdict(list)` instances (`FingerprintDatabase.fingerprints`,
`hash_fingerprints`, the local `matches` of `query`/`evaluate`) are
modelled as association lists in key-insertion order: a new key is
appended at the end (Python dict iteration order), an existing key keeps
its position. -/

/-- Plain dictionary lookup: `m[k]` when the key is known to be present,
`m.get(k, None)` in general. -/
def alist_get : List (ℤ × β) → ℤ → Option β
  | [], _ => none
  | (k, v) :: rest, d => if k = d then some v else alist_get rest d

/-- Python `k in m` (does not insert, also for a `defaultdict`). -/
def dd_contains (m : List (ℤ × β)) (k : ℤ) : Bool := (alist_get m k).isSome

/-- `m[k].append(v)` on a `defaultdict(list)`: appends `v` to the list at
`k`, materializing the entry (as the empty list, followed by the append)
when `k` is absent. -/
def dd_append : List (ℤ × List α) → ℤ → α → List (ℤ × List α)
  | [], k, v => [(k, [v])]
  | (k', vs) :: rest, k, v =>
    if k' = k then (k', vs ++ [v]) :: rest else (k', vs) :: dd_append rest k v

/-- `m[k]` on a `defaultdict(list)`: returns the stored list when `k` is
present; otherwise inserts and returns the default `[]` (this mutation is
why the state is threaded through). -/
def dd_getitem (m : List (ℤ × List α)) (k : ℤ) : List (ℤ × List α) × List α :=
  match alist_get m k with
  | some v => (m, v)
  | none => (m ++ [(k, [])], [])

/-! ## Fingerprint generation -/

/-- `AudioFingerprinter.generate_fingerprints(peaks, times, freqs, audio_id)`:
for every ordered pair of distinct peaks `(x, y)` whose elapsed time lies
in `(0, time_window]`, emit `(digest, audio_id, anchor_time = time(x))`.
The time/frequency axis arrays are modelled as functions of the index. -/
def generate_fingerprints (time_window : ℚ) (peaks : List Peak)
    (times freqs : ℕ → ℚ) (audio_id : ℤ) : List HashRecord :=
  (peaks.enum).flatMap fun x =>
    (peaks.enum).filterMap fun y =>
      if x.1 ≠ y.1 then
        let time_x := times x.2.ti
        let time_y := times y.2.ti
        let freq_x := freqs x.2.fi
        let freq_y := freqs y.2.fi
        let time_diff := time_y - time_x
        if 0 < time_diff ∧ time_diff ≤ time_window then
          some ⟨make_fuzzy_hash freq_x freq_y time_diff, audio_id, time_x⟩
        else none
      else none

/-- `create_fingerprint(constellation, times, freq, TIME_WINDOW, audio_id)`
in `fingerprint.py`: same double loop, but the window test is only
`time_diff <= TIME_WINDOW` — there is no `0 <` lower bound. -/
def create_fingerprint (TIME_WINDOW : ℚ) (constellation : List Peak)
    (times freq : ℕ → ℚ) (audio_id : ℤ) : List HashRecord :=
  (constellation.enum).flatMap fun x =>
    (constellation.enum).filterMap fun y =>
      if x.1 ≠ y.1 then
        let time_x := times x.2.ti
        let time_y := times y.2.ti
        let freq_x := freq x.2.fi
        let freq_y := freq y.2.fi
        let time_diff := time_y - time_x
        if time_diff ≤ TIME_WINDOW then
          some ⟨make_fuzzy_hash freq_x freq_y time_diff, audio_id, time_x⟩
        else none
      else none

/-! ## Peak extraction -/

/-- `range(0, n, step)` for `step ≥ 1`: the tile start offsets.
(Python raises for `step = 0`; the definition is only used with
positive window sizes.) -/
def tile_starts (n step : ℕ) : List ℕ := List.range' 0 ((n + step - 1) / step) step

/-- The inner `k`/`l` scan of one tile of `AudioFingerprinter.extract_peaks`:
state `(max_ele, max_k, max_l)` starts at `(-1, -1, -1)` and is replaced
whenever a strictly larger cell is met, so the first cell (in row-major
order) attaining the tile maximum wins.  The bounds `ke = min (i + W) r`
and `le = min (j + W) c` are supplied by the caller. -/
def scan_tile (S : ℕ → ℕ → ℚ) (i j ke le : ℕ) : ℚ × ℤ × ℤ :=
  (List.range' i (ke - i)).foldl
    (fun st k =>
      (List.range' j (le - j)).foldl
        (fun st l => if S k l > st.1 then (S k l, (k : ℤ), (l : ℤ)) else st) st)
    (-1, -1, -1)

/-- One iteration of the tile loops of `AudioFingerprinter.extract_peaks`:
scan the tile anchored at `(i, j)` (clipped to the matrix — the last tile
in each dimension may be smaller, never padded) and keep the found cell
when the scan fired (`max_k >= 0 and max_l >= 0`). -/
def tile_peak (window_size : ℕ) (r c : ℕ) (S : ℕ → ℕ → ℚ) (i j : ℕ) : Option Peak :=
  let st := scan_tile S i j (min (i + window_size) r) (min (j + window_size) c)
  if 0 ≤ st.2.1 ∧ 0 ≤ st.2.2 then
    some ⟨st.2.1.toNat, st.2.2.toNat, S st.2.1.toNat st.2.2.toNat⟩
  else none

/-- The `max_points` candidate list of `AudioFingerprinter.extract_peaks`:
one entry per tile whose scan fired, in tile iteration order. -/
def max_points (window_size : ℕ) (r c : ℕ) (S : ℕ → ℕ → ℚ) : List Peak :=
  (tile_starts r window_size).flatMap fun i =>
    (tile_starts c window_size).filterMap fun j => tile_peak window_size r c S i j

/-- `AudioFingerprinter.extract_peaks(spectrogram)`: per-tile maxima,
then the candidates are sorted by amplitude ascending and the slice
`sorted_points[int(len(sorted_points) * threshold):]` is returned.
The spectrogram is modelled as its shape `r × c` plus a cell function. -/
def extract_peaks (window_size : ℕ) (threshold : ℚ) (r c : ℕ)
    (S : ℕ → ℕ → ℚ) : List Peak :=
  let sorted_points := py_sorted (fun a b => decide (a.amp ≤ b.amp)) (max_points window_size r c S)
  pyslice_from sorted_points (pyint ((sorted_points.length : ℚ) * threshold))

/-- Raw constellation point `[max_k, max_l, value]` of
`compute_constellations` in `fingerprint.py`; the indices stay integers
because that function appends the `(-1, -1)` sentinel unfiltered. -/
structure CPoint where
  k : ℤ
  l : ℤ
  amp : ℚ
deriving DecidableEq, Repr

/-- Python exceptions that `fingerprint.py` can raise. -/
inductive PyErr
  | indexError
deriving DecidableEq, Repr

/-- In-bounds read `spectrogram[k][l]` of the row-list representation
(the guards `k >= r or l >= c: continue` keep all scan reads in bounds
for a rectangular matrix). -/
def mat_get (S : List (List ℚ)) (k l : ℕ) : ℚ := ((S.getD k []).getD l 0)

/-- Python read `spectrogram[k][l]` with `int` indices: a negative index
within range counts from the end (`-1` is the last row/column). Reachable
reads are always in range, so out-of-range falls back to `0`. -/
def mat_get_wrap (S : List (List ℚ)) (k l : ℤ) : ℚ :=
  let row := if k < 0 then S.getD ((S.length : ℤ) + k).toNat [] else S.getD k.toNat []
  if l < 0 then row.getD ((row.length : ℤ) + l).toNat 0 else row.getD l.toNat 0

/-- The inner `k`/`l` scan of one tile of `compute_constellations`: the
loops run the full `WINDOW_SIZE` range and skip out-of-range cells with
`continue`. -/
def scan_tile_c (S : List (List ℚ)) (r c i j W : ℕ) : ℚ × ℤ × ℤ :=
  (List.range' i W).foldl
    (fun st k =>
      (List.range' j W).foldl
        (fun st l =>
          if r ≤ k ∨ c ≤ l then st
          else if mat_get S k l > st.1 then (mat_get S k l, (k : ℤ), (l : ℤ)) else st)
        st)
    (-1, -1, -1)

/-- `compute_constellations(spectrogram, WINDOW_SIZE)` in
`fingerprint.py`: `len(spectrogram[0])` raises an `IndexError` on an
empty outer list; otherwise one `[max_k, max_l, spectrogram[max_k][max_l]]`
is appended per tile, unconditionally (the `(-1, -1)` sentinel included,
read back with Python's negative indexing). -/
def compute_constellations (spectrogram : List (List ℚ)) (WINDOW_SIZE : ℕ) :
    Except PyErr (List CPoint) :=
  match spectrogram with
  | [] => .error .indexError
  | row0 :: _ =>
    let r := spectrogram.length
    let c := row0.length
    .ok <| (tile_starts r WINDOW_SIZE).flatMap fun i =>
      (tile_starts c WINDOW_SIZE).map fun j =>
        let st := scan_tile_c spectrogram r c i j WINDOW_SIZE
        ⟨st.2.1, st.2.2, mat_get_wrap spectrogram st.2.1 st.2.2⟩

/-- `filter_constellation(constellation, THRESH)` in `fingerprint.py`:
sort by amplitude ascending, return `sorted[int(len * THRESH):]`. -/
def filter_constellation (constellation : List CPoint) (THRESH : ℚ) : List CPoint :=
  let sorted_constellation := py_sorted (fun a b => decide (a.amp ≤ b.amp)) constellation
  pyslice_from sorted_constellation (pyint ((sorted_constellation.length : ℚ) * THRESH))

/-! ## The fingerprint index -/

/-- `digest -> [(audio_id, anchor_time), ...]`, a `defaultdict(list)`. -/
abbrev Postings := List (ℤ × List (ℤ × ℚ))

/-- Arbitrary metadata dictionary (its content never matters to the
matching logic; Python truthiness of `{}` is emptiness of the list). -/
abbrev Md := List (ℕ × ℕ)

/-- `FingerprintDatabase`: the fingerprint index plus the metadata map. -/
structure Database where
  fingerprints : Postings
  metadata : List (ℤ × Md)
deriving DecidableEq, Repr

/-- Python dict assignment `m[k] = v`: overwrites in place when the key
is present (keeping its position), appends a new entry otherwise. -/
def dict_set : List (ℤ × β) → ℤ → β → List (ℤ × β)
  | [], k, v => [(k, v)]
  | (k', v') :: rest, k, v =>
    if k' = k then (k', v) :: rest else (k', v') :: dict_set rest k v

/-- `save_to_db(hashes, hash_fingerprints)` in `fingerprint.py`:
`hash_fingerprints[digest].append((audio_id, time_x))` per record. -/
def save_to_db (hashes : List HashRecord) (hash_fingerprints : Postings) : Postings :=
  hashes.foldl (fun fps h => dd_append fps h.digest (h.audio_id, h.anchor_time)) hash_fingerprints

/-- `FingerprintDatabase.add_fingerprints(hashes, audio_id, metadata)`:
appends each record's posting, then stores the metadata under `audio_id`
if `metadata` is truthy (`None` and `{}` are both falsy). -/
def add_fingerprints (db : Database) (hashes : List HashRecord) (audio_id : ℤ)
    (metadata : Option Md) : Database :=
  let fps := hashes.foldl (fun fps h => dd_append fps h.digest (h.audio_id, h.anchor_time))
    db.fingerprints
  match metadata with
  | some md =>
    if md = [] then { fingerprints := fps, metadata := db.metadata }
    else { fingerprints := fps, metadata := dict_set db.metadata audio_id md }
  | none => { fingerprints := fps, metadata := db.metadata }

/-! ## The matchers -/

/-- Offset histogram `offset -> [audio_id, ...]` built by a matcher. -/
abbrev VoteMap := List (ℤ × List ℤ)

/-- The first loop of `FingerprintDatabase.query`: for each query record,
`if digest in self.fingerprints:` then for every posting
`(audio_id, anchor_time_db)` of `self.fingerprints[digest]` append
`audio_id` to `matches[int(anchor_time_db - time_x)]`.  The index is
threaded because `self.fingerprints` is a `defaultdict` whose `[...]`
access can insert (guarded here by the `in` test). -/
def query_step (st : Postings × VoteMap) (q : HashRecord) : Postings × VoteMap :=
  if dd_contains st.1 q.digest then
    let gi := dd_getitem st.1 q.digest
    (gi.1,
      gi.2.foldl
        (fun mm p => dd_append mm (pyint (p.2 - q.anchor_time)) p.1)
        st.2)
  else st

/-- The whole first loop of `FingerprintDatabase.query`. -/
def query_collect (fps : Postings) (query_hashes : List HashRecord) :
    Postings × VoteMap :=
  query_hashes.foldl query_step (fps, [])

/-- The first loop of `evaluate` in `fingerprint.py`: identical except the
presence test is `hash_fingerprints.get(digest, None) != None` and the
offset variable is named `target_time`. -/
def evaluate_step (st : Postings × VoteMap) (q : HashRecord) : Postings × VoteMap :=
  if alist_get st.1 q.digest ≠ none then
    let gi := dd_getitem st.1 q.digest
    (gi.1,
      gi.2.foldl
        (fun mm p =>
          let target_time := p.2 - q.anchor_time
          dd_append mm (pyint target_time) p.1)
        st.2)
  else st

/-- The whole first loop of `evaluate`. -/
def evaluate_collect (hash_fingerprints : Postings) (query_hashes : List HashRecord) :
    Postings × VoteMap :=
  query_hashes.foldl evaluate_step (hash_fingerprints, [])

/-- `max(matches.keys(), key=lambda k: len(matches[k]))` over a Python
dict: iterates the keys in insertion order and keeps the first key whose
list is strictly longer than the best so far — `none` only on an empty
dict (where Python `max` would raise, guarded by the caller). -/
def py_max_step (best : Option (ℤ × ℕ)) (kv : ℤ × List ℤ) : Option (ℤ × ℕ) :=
  match best with
  | none => some (kv.1, kv.2.length)
  | some b => if kv.2.length > b.2 then some (kv.1, kv.2.length) else some b

/-- The `max(...)` call itself. -/
def py_max_by_len (mm : VoteMap) : Option ℤ :=
  (mm.foldl py_max_step none).map (·.1)

/-- The explicit selection loop of `evaluate`: `max_len` starts at `0`,
`max_key` at `None`, updated on strictly greater length. -/
def eval_max_step (st : Option ℤ × ℕ) (kv : ℤ × List ℤ) : Option ℤ × ℕ :=
  if kv.2.length > st.2 then (some kv.1, kv.2.length) else st

/-- The whole selection loop of `evaluate`. -/
def eval_max (mm : VoteMap) : Option ℤ × ℕ :=
  mm.foldl eval_max_step (none, 0)

/-- `collections.Counter(l)`: occurrence counts keyed by first
occurrence. -/
def counter_add : List (ℤ × ℕ) → ℤ → List (ℤ × ℕ)
  | [], x => [(x, 1)]
  | (y, n) :: rest, x =>
    if y = x then (y, n + 1) :: rest else (y, n) :: counter_add rest x

/-- `collections.Counter` built from a list. -/
def counter (l : List ℤ) : List (ℤ × ℕ) := l.foldl counter_add []

/-- The result computation of `FingerprintDatabase.query` given the
offset histogram: `return None` on an empty histogram, otherwise the best
offset's per-source vote shares sorted by confidence descending
(`list.sort(key=..., reverse=True)` is a stable descending sort). -/
def query_result (mm : VoteMap) : Option (List (ℤ × ℚ)) :=
  if mm = [] then none
  else
    match py_max_by_len mm with
    | none => none
    | some max_key =>
      let ctr := counter ((alist_get mm max_key).getD [])
      let total : ℕ := (ctr.map (·.2)).sum
      let results := ctr.map fun p => (p.1, (p.2 : ℚ) / (total : ℚ))
      some (py_sorted (fun a b => decide (b.2 ≤ a.2)) results)

/-- `FingerprintDatabase.query(query_hashes)`: the offset histogram and
the result computed from it.  Returns the (unchanged, see the frame
theorem) index state together with the `Optional` result. -/
def query (db : Database) (query_hashes : List HashRecord) :
    Database × Option (List (ℤ × ℚ)) :=
  let st := query_collect db.fingerprints query_hashes
  ({ db with fingerprints := st.1 }, query_result st.2)

/-- The result computation of `evaluate` given the offset histogram:
explicit max-selection loop, `None` when nothing was collected, then the
best offset's per-source vote shares in `Counter` iteration order,
unsorted. -/
def evaluate_result (mm : VoteMap) : Option (List (ℤ × ℚ)) :=
  match eval_max mm with
  | (max_key, max_len) =>
    if max_len = 0 ∨ max_key = none then none
    else
      match max_key with
      | none => none
      | some k =>
        let ctr := counter ((alist_get mm k).getD [])
        let total_preds : ℕ := (ctr.map (·.2)).sum
        some (ctr.map fun p => (p.1, (p.2 : ℚ) / (total_preds : ℚ)))

/-- `evaluate(query_hashes, hash_fingerprints)` in `fingerprint.py`: same
histogram, explicit winner-selection loop, unsorted result.  The
(unchanged) dictionary is returned alongside for the frame theorem. -/
def evaluate (query_hashes : List HashRecord) (hash_fingerprints : Postings) :
    Postings × Option (List (ℤ × ℚ)) :=
  let st := evaluate_collect hash_fingerprints query_hashes
  (st.1, evaluate_result st.2)

/-- `FingerprintDatabase.clear()`. -/
def clear (_db : Database) : Database := { fingerprints := [], metadata := [] }

/-! ## Specification views

Declarative counterparts, written from the specification's wording, used
to state the claims; the theorems connect them to the embedded code. -/

/-- Folding a stream of `(key, value)` pairs into a `defaultdict(list)`. -/
def dd_extend (mm : List (ℤ × List α)) (vs : List (ℤ × α)) : List (ℤ × List α) :=
  vs.foldl (fun mm v => dd_append mm v.1 v.2) mm

/-- Spec view of the matcher's vote stream (§4.4 step 1): for each query
record and each posting of its digest, one vote
`(offset bucket, db_source_id)`, in processing order.  The bucket is
`int(db_anchor_time - query_anchor_time)` — truncation toward zero. -/
def offset_votes (fps : Postings) (query_hashes : List HashRecord) : List (ℤ × ℤ) :=
  query_hashes.flatMap fun q =>
    ((alist_get fps q.digest).getD []).map fun p => (pyint (p.2 - q.anchor_time), p.1)

/-- The votes of the stream that land in bucket `k`. -/
def votes_at (vs : List (ℤ × α)) (k : ℤ) : List α :=
  vs.filterMap fun v => if v.1 = k then some v.2 else none

/-- Spec view (§4.2): the records the claim says fingerprint generation
emits — one per ordered index pair of distinct peaks passing the window
predicate `P` on the elapsed time, in loop order. -/
def pair_records (P : ℚ → Prop) [DecidablePred P] (peaks : List Peak)
    (times freqs : ℕ → ℚ) (audio_id : ℤ) : List HashRecord :=
  ((peaks.enum ×ˢ peaks.enum).filter fun q =>
    decide (q.1.1 ≠ q.2.1 ∧ P (times q.2.2.ti - times q.1.2.ti))).map
    fun q =>
      ⟨make_fuzzy_hash (freqs q.1.2.fi) (freqs q.2.2.fi) (times q.2.2.ti - times q.1.2.ti),
        audio_id, times q.1.2.ti⟩

/-- Spec view (§4.1): the cells of the tile `[i, ke) × [j, le)` in
row-major scan order. -/
def tile_cells (i j ke le : ℕ) : List (ℕ × ℕ) :=
  (List.range' i (ke - i)).flatMap fun k => (List.range' j (le - j)).map fun l => (k, l)

/-- Spec view (§4.1): `p` is the peak of the tile `[i, ke) × [j, le)` —
its amplitude is the cell value, every cell of the tile is `≤` it, and
every cell strictly before it in row-major order is `<` it (first
occurrence wins ties). -/
def is_tile_argmax (S : ℕ → ℕ → ℚ) (i j ke le : ℕ) (p : Peak) : Prop :=
  p.amp = S p.fi p.ti ∧
  (∀ q ∈ tile_cells i j ke le, S q.1 q.2 ≤ p.amp) ∧
  ∃ pre post, tile_cells i j ke le = pre ++ (p.fi, p.ti) :: post ∧
    ∀ q ∈ pre, S q.1 q.2 < p.amp

/-- The number of tiles `ceil(r/W) * ceil(c/W)` the scan visits. -/
def num_tiles (r c W : ℕ) : ℕ := ((r + W - 1) / W) * ((c + W - 1) / W)

/-- Spec view (data model / §4.4 steps 4–5): what the claims say about a
result list `res` produced at a winning offset whose vote list is `l`:
the winning list is non-empty, each returned pair's confidence is
votes-for-that-source over total votes (hence within `[0, 1]`), only
sources voted at the winning offset appear, and the confidences sum
to `1`. -/
def confidence_props (l : List ℤ) (res : List (ℤ × ℚ)) : Prop :=
  l ≠ [] ∧
  (∀ p ∈ res, p.2 = (l.count p.1 : ℚ) / (l.length : ℚ) ∧
    0 ≤ p.2 ∧ p.2 ≤ 1 ∧ p.1 ∈ l) ∧
  (res.map (·.2)).sum = 1

/-- Spec view (§4.1): what the claim says about `extract_peaks` on a
non-empty magnitude spectrogram: the result is the
`int(N * θ)`-entry-truncated ascending-amplitude sort of the per-tile
candidates; it is sorted ascending by amplitude; one candidate is
produced per tile; `floor(N * θ)` entries are dropped (a number at most
`N`); and every returned peak is its tile's row-major-first maximum. -/
def extract_peaks_spec_props (W : ℕ) (θ : ℚ) (r c : ℕ) (S : ℕ → ℕ → ℚ) : Prop :=
  extract_peaks W θ r c S
      = (py_sorted (fun a b => decide (a.amp ≤ b.amp)) (max_points W r c S)).drop
          (⌊(num_tiles r c W : ℚ) * θ⌋).toNat ∧
  (extract_peaks W θ r c S).Pairwise (fun a b => a.amp ≤ b.amp) ∧
  (max_points W r c S).length = num_tiles r c W ∧
  (extract_peaks W θ r c S).length
      = num_tiles r c W - (⌊(num_tiles r c W : ℚ) * θ⌋).toNat ∧
  (⌊(num_tiles r c W : ℚ) * θ⌋).toNat ≤ num_tiles r c W ∧
  ∀ p ∈ extract_peaks W θ r c S,
    ∃ i ∈ tile_starts r W, ∃ j ∈ tile_starts c W,
      is_tile_argmax S i j (min (i + W) r) (min (j + W) c) p

/-! # Lemmas about the Python modelling helpers -/

theorem sinsert_perm (le : α → α → Bool) (x : α) (l : List α) :
    (sinsert le x l).Perm (x :: l) := by
  induction l with
  | nil => simp [sinsert]
  | cons y ys ih =>
    by_cases h : le y x
    · simpa [sinsert, h] using (ih.cons y).trans (List.Perm.swap x y ys)
    · simp [sinsert, h]

theorem mem_sinsert {le : α → α → Bool} {x z : α} {l : List α} :
    z ∈ sinsert le x l ↔ z = x ∨ z ∈ l :=
  (sinsert_perm le x l).mem_iff.trans (by simp)

theorem py_sorted_perm (le : α → α → Bool) (l : List α) : (py_sorted le l).Perm l := by
  suffices h : ∀ (l acc : List α),
      (l.foldl (fun acc x => sinsert le x acc) acc).Perm (acc ++ l) by
    simpa using h l []
  intro l
  induction l with
  | nil => simp
  | cons x xs ih =>
    intro acc
    refine (ih (sinsert le x acc)).trans ?_
    refine (((sinsert_perm le x acc).append_right xs).trans ?_)
    exact List.perm_middle.symm

theorem mem_py_sorted {le : α → α → Bool} {l : List α} {z : α} :
    z ∈ py_sorted le l ↔ z ∈ l :=
  (py_sorted_perm le l).mem_iff

theorem length_py_sorted (le : α → α → Bool) (l : List α) :
    (py_sorted le l).length = l.length :=
  (py_sorted_perm le l).length_eq

theorem pairwise_sinsert {le : α → α → Bool}
    (htot : ∀ a b, le a b = true ∨ le b a = true)
    (htrans : ∀ a b c, le a b = true → le b c = true → le a c = true)
    (x : α) {l : List α} (h : l.Pairwise (fun a b => le a b = true)) :
    (sinsert le x l).Pairwise (fun a b => le a b = true) := by
  induction l with
  | nil => simp [sinsert]
  | cons y ys ih =>
    rw [List.pairwise_cons] at h
    obtain ⟨hy, hys⟩ := h
    by_cases hyx : le y x
    · rw [sinsert, if_pos hyx, List.pairwise_cons]
      refine ⟨fun z hz => ?_, ih hys⟩
      rcases mem_sinsert.mp hz with rfl | hz
      · exact hyx
      · exact hy z hz
    · rw [sinsert, if_neg hyx, List.pairwise_cons]
      have hxy : le x y := (htot x y).resolve_right (by simpa using hyx)
      refine ⟨fun z hz => ?_, List.pairwise_cons.mpr ⟨hy, hys⟩⟩
      rcases List.mem_cons.mp hz with rfl | hz
      · exact hxy
      · exact htrans x y z hxy (hy z hz)

theorem pairwise_py_sorted (le : α → α → Bool)
    (htot : ∀ a b, le a b = true ∨ le b a = true)
    (htrans : ∀ a b c, le a b = true → le b c = true → le a c = true)
    (l : List α) :
    (py_sorted le l).Pairwise (fun a b => le a b = true) := by
  suffices h : ∀ (l acc : List α), acc.Pairwise (fun a b => le a b = true) →
      (l.foldl (fun acc x => sinsert le x acc) acc).Pairwise (fun a b => le a b = true) by
    exact h l [] (by simp)
  intro l
  induction l with
  | nil => exact fun acc h => h
  | cons x xs ih => exact fun acc h => ih _ (pairwise_sinsert htot htrans x h)

theorem pyslice_from_of_nonneg (l : List α) {i : ℤ} (h : 0 ≤ i) :
    pyslice_from l i = l.drop i.toNat := by
  simp [pyslice_from, not_lt.mpr h]

theorem pyint_of_nonneg {q : ℚ} (h : 0 ≤ q) : pyint q = ⌊q⌋ := by
  simp [pyint, not_lt.mpr h]

/-! # Lemmas about the dictionary model -/

theorem alist_get_nil (d : ℤ) : alist_get ([] : List (ℤ × β)) d = none := rfl

theorem alist_get_eq_none {m : List (ℤ × β)} {d : ℤ} :
    alist_get m d = none ↔ d ∉ m.map (·.1) := by
  induction m with
  | nil => simp [alist_get]
  | cons p rest ih =>
    obtain ⟨k, v⟩ := p
    by_cases h : k = d
    · subst h
      simp [alist_get]
    · simp [alist_get, h, ih, Ne.symm h]

theorem alist_get_of_mem_of_nodup {m : List (ℤ × β)} {k : ℤ} {v : β}
    (h : (m.map (·.1)).Nodup) (hm : (k, v) ∈ m) : alist_get m k = some v := by
  induction m with
  | nil => cases hm
  | cons p rest ih =>
    obtain ⟨k', v'⟩ := p
    rw [List.map_cons, List.nodup_cons] at h
    rcases List.mem_cons.mp hm with heq | hm'
    · cases heq
      simp [alist_get]
    · have hk : k' ≠ k := by
        rintro rfl
        exact h.1 (List.mem_map.mpr ⟨_, hm', rfl⟩)
      simp only [alist_get, if_neg hk]
      exact ih h.2 hm'

theorem alist_get_dd_append (m : List (ℤ × List α)) (k : ℤ) (v : α) (d : ℤ) :
    alist_get (dd_append m k v) d =
      if k = d then some ((alist_get m k).getD [] ++ [v]) else alist_get m d := by
  induction m with
  | nil => by_cases h : k = d <;> simp [dd_append, alist_get, h]
  | cons p rest ih =>
    obtain ⟨k', vs⟩ := p
    by_cases h1 : k' = k
    · subst h1
      by_cases h2 : k' = d <;> simp [dd_append, alist_get, h2]
    · by_cases h2 : k' = d
      · subst h2
        have hk : ¬k = k' := fun h => h1 h.symm
        simp [dd_append, alist_get, h1, hk]
      · simp [dd_append, alist_get, h1, h2, ih]

theorem dd_append_ne_nil (m : List (ℤ × List α)) (k : ℤ) (v : α) :
    dd_append m k v ≠ [] := by
  cases m with
  | nil => simp [dd_append]
  | cons p rest =>
    obtain ⟨k', vs⟩ := p
    by_cases h : k' = k <;> simp [dd_append, h]

theorem keys_dd_append (m : List (ℤ × List α)) (k : ℤ) (v : α) :
    (dd_append m k v).map (·.1) =
      if k ∈ m.map (·.1) then m.map (·.1) else m.map (·.1) ++ [k] := by
  induction m with
  | nil => simp [dd_append]
  | cons p rest ih =>
    obtain ⟨k', vs⟩ := p
    by_cases h : k' = k
    · subst h
      simp [dd_append]
    · have hne : k ≠ k' := fun h' => h h'.symm
      by_cases hk : k ∈ rest.map (·.1) <;> simp [dd_append, h, hne, hk, ih]

theorem keys_nodup_dd_append {m : List (ℤ × List α)} (k : ℤ) (v : α)
    (h : (m.map (·.1)).Nodup) : ((dd_append m k v).map (·.1)).Nodup := by
  rw [keys_dd_append]
  by_cases hk : k ∈ m.map (·.1)
  · simpa [hk] using h
  · rw [if_neg hk]
    exact (List.perm_append_singleton k _).nodup_iff.mpr (List.nodup_cons.mpr ⟨hk, h⟩)

theorem values_ne_nil_dd_append {m : List (ℤ × List α)} (k : ℤ) (v : α)
    (h : ∀ p ∈ m, p.2 ≠ []) : ∀ p ∈ dd_append m k v, p.2 ≠ [] := by
  induction m with
  | nil => simp [dd_append]
  | cons q rest ih =>
    obtain ⟨k', vs⟩ := q
    intro p hp
    by_cases hk : k' = k
    · subst hk
      rw [dd_append, if_pos rfl] at hp
      rcases List.mem_cons.mp hp with rfl | hp'
      · simp
      · exact h p (List.mem_cons_of_mem _ hp')
    · rw [dd_append, if_neg hk] at hp
      rcases List.mem_cons.mp hp with rfl | hp'
      · exact h _ (List.mem_cons_self _ _)
      · exact ih (fun p hp => h p (List.mem_cons_of_mem _ hp)) p hp'

theorem dd_extend_append (mm : List (ℤ × List α)) (vs ws : List (ℤ × α)) :
    dd_extend mm (vs ++ ws) = dd_extend (dd_extend mm vs) ws :=
  List.foldl_append ..

theorem votes_at_nil (k : ℤ) : votes_at ([] : List (ℤ × α)) k = [] := rfl

theorem votes_at_cons (v : ℤ × α) (vs : List (ℤ × α)) (k : ℤ) :
    votes_at (v :: vs) k = (if v.1 = k then [v.2] else []) ++ votes_at vs k := by
  by_cases h : v.1 = k <;> simp [votes_at, List.filterMap_cons, h]

theorem alist_get_dd_extend (vs : List (ℤ × α)) (mm : List (ℤ × List α)) (k : ℤ) :
    (alist_get (dd_extend mm vs) k).getD [] =
      (alist_get mm k).getD [] ++ votes_at vs k := by
  induction vs generalizing mm with
  | nil => simp [dd_extend, votes_at]
  | cons v vs ih =>
    rw [show dd_extend mm (v :: vs) = dd_extend (dd_append mm v.1 v.2) vs from rfl,
      ih, votes_at_cons, alist_get_dd_append]
    by_cases h : v.1 = k <;> simp [h]

theorem dd_extend_ne_nil {mm : List (ℤ × List α)} (vs : List (ℤ × α)) (h : mm ≠ []) :
    dd_extend mm vs ≠ [] := by
  induction vs generalizing mm with
  | nil => exact h
  | cons v vs ih => exact ih (dd_append_ne_nil mm v.1 v.2)

theorem dd_extend_nil_eq_nil_iff (vs : List (ℤ × α)) :
    dd_extend ([] : List (ℤ × List α)) vs = [] ↔ vs = [] := by
  cases vs with
  | nil => simp [dd_extend]
  | cons v vs =>
    simp only [iff_false, List.cons_ne_nil]
    exact dd_extend_ne_nil vs (dd_append_ne_nil [] v.1 v.2)

theorem keys_nodup_dd_extend {mm : List (ℤ × List α)} (vs : List (ℤ × α))
    (h : (mm.map (·.1)).Nodup) : ((dd_extend mm vs).map (·.1)).Nodup := by
  induction vs generalizing mm with
  | nil => exact h
  | cons v vs ih => exact ih (keys_nodup_dd_append v.1 v.2 h)

theorem values_ne_nil_dd_extend {mm : List (ℤ × List α)} (vs : List (ℤ × α))
    (h : ∀ p ∈ mm, p.2 ≠ []) : ∀ p ∈ dd_extend mm vs, p.2 ≠ [] := by
  induction vs generalizing mm with
  | nil => exact h
  | cons v vs ih => exact ih (values_ne_nil_dd_append v.1 v.2 h)

/-! # Lemmas about the vote-collection loops -/

theorem query_step_fst (st : Postings × VoteMap) (q : HashRecord) :
    (query_step st q).1 = st.1 := by
  rw [query_step]
  by_cases h : dd_contains st.1 q.digest
  · rw [if_pos h]
    rcases ho : alist_get st.1 q.digest with _ | v
    · rw [dd_contains, ho] at h
      simp at h
    · simp [dd_getitem, ho]
  · rw [if_neg h]

theorem query_step_snd (st : Postings × VoteMap) (q : HashRecord) :
    (query_step st q).2 = dd_extend st.2
      (((alist_get st.1 q.digest).getD []).map fun p =>
        (pyint (p.2 - q.anchor_time), p.1)) := by
  rw [query_step]
  by_cases h : dd_contains st.1 q.digest
  · rw [if_pos h]
    rcases ho : alist_get st.1 q.digest with _ | v
    · rw [dd_contains, ho] at h
      simp at h
    · simp only [dd_getitem, ho, Option.getD_some]
      rw [dd_extend, List.foldl_map]
  · rw [if_neg h]
    rcases ho : alist_get st.1 q.digest with _ | v
    · simp [dd_extend]
    · rw [dd_contains, ho] at h
      simp at h

theorem evaluate_step_eq_query_step : @evaluate_step = @query_step := by
  funext st q
  rw [evaluate_step, query_step, dd_contains]
  rcases ho : alist_get st.1 q.digest with _ | v <;> simp [ho]

theorem query_collect_fst (fps : Postings) (qs : List HashRecord) :
    (query_collect fps qs).1 = fps := by
  suffices h : ∀ (qs : List HashRecord) (st : Postings × VoteMap),
      (qs.foldl query_step st).1 = st.1 by
    exact h qs (fps, [])
  intro qs
  induction qs with
  | nil => exact fun st => rfl
  | cons q qs ih =>
    intro st
    rw [List.foldl_cons, ih, query_step_fst]

theorem query_collect_snd (fps : Postings) (qs : List HashRecord) :
    (query_collect fps qs).2 = dd_extend [] (offset_votes fps qs) := by
  suffices h : ∀ (qs : List HashRecord) (st : Postings × VoteMap),
      (qs.foldl query_step st).2 = dd_extend st.2 (offset_votes st.1 qs) by
    exact h qs (fps, [])
  intro qs
  induction qs with
  | nil => intro st; simp [offset_votes, dd_extend]
  | cons q qs ih =>
    intro st
    rw [List.foldl_cons, ih, query_step_fst, query_step_snd]
    rw [show offset_votes st.1 (q :: qs) =
      (((alist_get st.1 q.digest).getD []).map fun p =>
        (pyint (p.2 - q.anchor_time), p.1)) ++ offset_votes st.1 qs from
      List.flatMap_cons ..]
    rw [dd_extend_append]

theorem evaluate_collect_eq (fps : Postings) (qs : List HashRecord) :
    evaluate_collect fps qs = query_collect fps qs := by
  rw [evaluate_collect, query_collect, evaluate_step_eq_query_step]

/-- The offset histogram, looked up at bucket `k`, holds exactly the vote
stream's source ids at bucket `k`, in order. -/
theorem query_collect_votes_at (fps : Postings) (qs : List HashRecord) (k : ℤ) :
    (alist_get (query_collect fps qs).2 k).getD [] =
      votes_at (offset_votes fps qs) k := by
  rw [query_collect_snd, alist_get_dd_extend]
  simp [alist_get]

theorem query_collect_snd_eq_nil_iff (fps : Postings) (qs : List HashRecord) :
    (query_collect fps qs).2 = [] ↔ offset_votes fps qs = [] := by
  rw [query_collect_snd, dd_extend_nil_eq_nil_iff]

theorem query_collect_keys_nodup (fps : Postings) (qs : List HashRecord) :
    (((query_collect fps qs).2).map (·.1)).Nodup := by
  rw [query_collect_snd]
  exact keys_nodup_dd_extend _ (by simp)

theorem query_collect_values_ne_nil (fps : Postings) (qs : List HashRecord) :
    ∀ p ∈ (query_collect fps qs).2, p.2 ≠ [] := by
  rw [query_collect_snd]
  exact values_ne_nil_dd_extend _ (by simp)

theorem offset_votes_eq_nil_iff (fps : Postings) (qs : List HashRecord) :
    offset_votes fps qs = [] ↔ ∀ q ∈ qs, (alist_get fps q.digest).getD [] = [] := by
  rw [offset_votes, List.flatMap_eq_nil_iff]
  constructor
  · intro h q hq
    have := h q hq
    simpa using this
  · intro h q hq
    simp [h q hq]

/-! # Lemmas about the winning-offset selection -/

theorem py_max_fold_some (mm : VoteMap) :
    ∀ b : ℤ × ℕ, ∃ b', mm.foldl py_max_step (some b) = some b' ∧
      (b' = b ∨ ∃ kv ∈ mm, b' = (kv.1, kv.2.length)) := by
  induction mm with
  | nil => exact fun b => ⟨b, rfl, Or.inl rfl⟩
  | cons kv rest ih =>
    intro b
    rw [List.foldl_cons]
    by_cases h : kv.2.length > b.2
    · have hstep : py_max_step (some b) kv = some (kv.1, kv.2.length) := by
        simp [py_max_step, h]
      rw [hstep]
      obtain ⟨b', h1, h2⟩ := ih (kv.1, kv.2.length)
      refine ⟨b', h1, ?_⟩
      rcases h2 with rfl | ⟨kv', hkv', rfl⟩
      · exact Or.inr ⟨kv, List.mem_cons_self _ _, rfl⟩
      · exact Or.inr ⟨kv', List.mem_cons_of_mem _ hkv', rfl⟩
    · have hstep : py_max_step (some b) kv = some b := by
        simp [py_max_step, h]
      rw [hstep]
      obtain ⟨b', h1, h2⟩ := ih b
      refine ⟨b', h1, ?_⟩
      rcases h2 with rfl | ⟨kv', hkv', rfl⟩
      · exact Or.inl rfl
      · exact Or.inr ⟨kv', List.mem_cons_of_mem _ hkv', rfl⟩

theorem py_max_by_len_of_ne_nil {mm : VoteMap} (h : mm ≠ []) :
    ∃ k v, py_max_by_len mm = some k ∧ (k, v) ∈ mm := by
  rcases mm with _ | ⟨kv, rest⟩
  · exact absurd rfl h
  · obtain ⟨b', h1, h2⟩ := py_max_fold_some rest (kv.1, kv.2.length)
    rw [py_max_by_len, List.foldl_cons]
    rw [show py_max_step none kv = some (kv.1, kv.2.length) from rfl]
    rcases h2 with rfl | ⟨kv', hkv', rfl⟩
    · exact ⟨kv.1, kv.2, by rw [h1]; rfl, by simp⟩
    · exact ⟨kv'.1, kv'.2, by rw [h1]; rfl, List.mem_cons_of_mem _ (by simpa using hkv')⟩

theorem py_max_by_len_mem {mm : VoteMap} {k : ℤ} (h : py_max_by_len mm = some k) :
    ∃ v, (k, v) ∈ mm := by
  rcases mm with _ | ⟨kv, rest⟩
  · cases h
  · obtain ⟨k', v, h1, h2⟩ := py_max_by_len_of_ne_nil (List.cons_ne_nil kv rest)
    rw [h1] at h
    injection h with h
    exact ⟨v, h ▸ h2⟩

theorem eval_max_fold_cases (mm : VoteMap) :
    ∀ st : Option ℤ × ℕ, mm.foldl eval_max_step st = st ∨
      ∃ kv ∈ mm, mm.foldl eval_max_step st = (some kv.1, kv.2.length) := by
  induction mm with
  | nil => exact fun st => Or.inl rfl
  | cons kv rest ih =>
    intro st
    rw [List.foldl_cons]
    by_cases h : kv.2.length > st.2
    · rcases ih (eval_max_step st kv) with h1 | ⟨kv', hkv', h1⟩
      · rw [h1, eval_max_step, if_pos h]
        exact Or.inr ⟨kv, List.mem_cons_self _ _, rfl⟩
      · exact Or.inr ⟨kv', List.mem_cons_of_mem _ hkv', h1⟩
    · rcases ih (eval_max_step st kv) with h1 | ⟨kv', hkv', h1⟩
      · rw [h1, eval_max_step, if_neg h]
        exact Or.inl rfl
      · exact Or.inr ⟨kv', List.mem_cons_of_mem _ hkv', h1⟩

theorem eval_max_snd_ge (mm : VoteMap) :
    ∀ st : Option ℤ × ℕ, st.2 ≤ (mm.foldl eval_max_step st).2 ∧
      ∀ kv ∈ mm, kv.2.length ≤ (mm.foldl eval_max_step st).2 := by
  induction mm with
  | nil => exact fun st => ⟨le_refl _, by simp⟩
  | cons kv rest ih =>
    intro st
    rw [List.foldl_cons]
    obtain ⟨ih1, ih2⟩ := ih (eval_max_step st kv)
    have hstep : st.2 ≤ (eval_max_step st kv).2 ∧ kv.2.length ≤ (eval_max_step st kv).2 := by
      rw [eval_max_step]
      by_cases h : kv.2.length > st.2
      · rw [if_pos h]
        exact ⟨le_of_lt h, le_refl _⟩
      · rw [if_neg h]
        exact ⟨le_refl _, le_of_not_lt h⟩
    refine ⟨le_trans hstep.1 ih1, fun kv' hkv' => ?_⟩
    rcases List.mem_cons.mp hkv' with rfl | h'
    · exact le_trans hstep.2 ih1
    · exact ih2 kv' h'

theorem eval_max_key_mem {mm : VoteMap} {k : ℤ} {n : ℕ}
    (h : eval_max mm = (some k, n)) : ∃ kv ∈ mm, kv.1 = k ∧ kv.2.length = n := by
  rcases eval_max_fold_cases mm (none, 0) with h1 | ⟨kv, hkv, h1⟩
  · rw [eval_max, h1] at h
    simp at h
  · rw [eval_max, h1, Prod.mk.injEq] at h
    obtain ⟨h2, h3⟩ := h
    injection h2 with h2
    exact ⟨kv, hkv, h2, h3⟩

/-! # Lemmas about `Counter` -/

theorem counter_add_get (m : List (ℤ × ℕ)) (x d : ℤ) :
    alist_get (counter_add m x) d =
      if x = d then some ((alist_get m x).getD 0 + 1) else alist_get m d := by
  induction m with
  | nil => by_cases h : x = d <;> simp [counter_add, alist_get, h]
  | cons p rest ih =>
    obtain ⟨y, n⟩ := p
    by_cases h1 : y = x
    · subst h1
      by_cases h2 : y = d <;> simp [counter_add, alist_get, h2]
    · by_cases h2 : y = d
      · subst h2
        have hx : ¬x = y := fun h => h1 h.symm
        simp [counter_add, alist_get, h1, hx]
      · simp [counter_add, alist_get, h1, h2, ih]

theorem counter_add_sum (m : List (ℤ × ℕ)) (x : ℤ) :
    ((counter_add m x).map (·.2)).sum = (m.map (·.2)).sum + 1 := by
  induction m with
  | nil => simp [counter_add]
  | cons p rest ih =>
    obtain ⟨y, n⟩ := p
    by_cases h : y = x
    · simp [counter_add, h]
      omega
    · simp [counter_add, h, ih]
      omega

theorem counter_add_keys (m : List (ℤ × ℕ)) (x : ℤ) :
    (counter_add m x).map (·.1) =
      if x ∈ m.map (·.1) then m.map (·.1) else m.map (·.1) ++ [x] := by
  induction m with
  | nil => simp [counter_add]
  | cons p rest ih =>
    obtain ⟨y, n⟩ := p
    by_cases h : y = x
    · subst h
      simp [counter_add]
    · have hne : x ≠ y := fun h' => h h'.symm
      by_cases hk : x ∈ rest.map (·.1) <;> simp [counter_add, h, hne, hk, ih]

theorem counter_add_keys_nodup {m : List (ℤ × ℕ)} (x : ℤ)
    (h : (m.map (·.1)).Nodup) : ((counter_add m x).map (·.1)).Nodup := by
  rw [counter_add_keys]
  by_cases hk : x ∈ m.map (·.1)
  · simpa [hk] using h
  · rw [if_neg hk]
    exact (List.perm_append_singleton x _).nodup_iff.mpr (List.nodup_cons.mpr ⟨hk, h⟩)

theorem counter_fold_get (l : List ℤ) :
    ∀ (m : List (ℤ × ℕ)) (d : ℤ),
      (alist_get (l.foldl counter_add m) d).getD 0 =
        (alist_get m d).getD 0 + l.count d := by
  induction l with
  | nil => simp [List.count_nil]
  | cons x xs ih =>
    intro m d
    rw [List.foldl_cons, ih, counter_add_get]
    by_cases h : x = d
    · subst h
      simp [List.count_cons]
      omega
    · have : ¬d = x := fun h' => h h'.symm
      simp [h, List.count_cons, this]

theorem counter_fold_sum (l : List ℤ) :
    ∀ m : List (ℤ × ℕ),
      ((l.foldl counter_add m).map (·.2)).sum = (m.map (·.2)).sum + l.length := by
  induction l with
  | nil => simp
  | cons x xs ih =>
    intro m
    rw [List.foldl_cons, ih, counter_add_sum]
    simp only [List.length_cons]
    omega

theorem counter_fold_keys_sub (l : List ℤ) :
    ∀ (m : List (ℤ × ℕ)) (k : ℤ),
      k ∈ (l.foldl counter_add m).map (·.1) → k ∈ m.map (·.1) ∨ k ∈ l := by
  induction l with
  | nil => exact fun m k h => Or.inl h
  | cons x xs ih =>
    intro m k h
    rcases ih _ k h with h' | h'
    · rw [counter_add_keys] at h'
      by_cases hx : x ∈ m.map (·.1)
      · rw [if_pos hx] at h'
        exact Or.inl h'
      · rw [if_neg hx, List.mem_append] at h'
        rcases h' with h' | h'
        · exact Or.inl h'
        · simp only [List.mem_singleton] at h'
          exact Or.inr (h' ▸ List.mem_cons_self _ _)
    · exact Or.inr (List.mem_cons_of_mem _ h')

theorem counter_fold_keys_nodup (l : List ℤ) :
    ∀ m : List (ℤ × ℕ), (m.map (·.1)).Nodup →
      ((l.foldl counter_add m).map (·.1)).Nodup := by
  induction l with
  | nil => exact fun m h => h
  | cons x xs ih => exact fun m h => ih _ (counter_add_keys_nodup x h)

theorem counter_get (l : List ℤ) (d : ℤ) :
    (alist_get (counter l) d).getD 0 = l.count d := by
  rw [counter, counter_fold_get]
  simp [alist_get]

theorem counter_sum (l : List ℤ) : ((counter l).map (·.2)).sum = l.length := by
  rw [counter, counter_fold_sum]
  simp

theorem counter_keys_nodup (l : List ℤ) : ((counter l).map (·.1)).Nodup :=
  counter_fold_keys_nodup l [] (by simp)

theorem counter_mem {l : List ℤ} {a : ℤ} {n : ℕ} (h : (a, n) ∈ counter l) :
    n = l.count a ∧ a ∈ l := by
  have hget := alist_get_of_mem_of_nodup (counter_keys_nodup l) h
  constructor
  · have := counter_get l a
    rw [hget] at this
    simpa using this
  · have : a ∈ (counter l).map (·.1) := List.mem_map.mpr ⟨(a, n), h, rfl⟩
    rcases counter_fold_keys_sub l [] a (by simpa [counter] using this) with h' | h'
    · simp at h'
    · exact h'

theorem counter_ne_nil {l : List ℤ} (h : l ≠ []) : counter l ≠ [] := by
  intro hc
  have := counter_sum l
  rw [hc] at this
  simp at this
  exact h (List.length_eq_zero.mp this.symm)

theorem sum_map_cast_div (l : List ℕ) (T : ℚ) :
    (l.map fun n : ℕ => (n : ℚ) / T).sum = (l.sum : ℚ) / T := by
  induction l with
  | nil => simp
  | cons n l ih => simp [ih, add_div]

/-! # Lemmas about the pairing loops -/

theorem filterMap_ite (l : List β) (P : β → Prop) [DecidablePred P] (F : β → γ) :
    (l.filterMap fun b => if P b then some (F b) else none)
      = (l.filter fun b => decide (P b)).map F := by
  induction l with
  | nil => rfl
  | cons b l ih =>
    by_cases h : P b <;> simp [List.filterMap_cons, List.filter_cons, h, ih]

theorem ite_ite_none {P Q : Prop} [Decidable P] [Decidable Q] (r : γ) :
    (if P then (if Q then some r else none) else none)
      = if P ∧ Q then some r else none := by
  by_cases hP : P <;> by_cases hQ : Q <;> simp [hP, hQ]

theorem flatMap_filterMap_product (l₁ : List α) (l₂ : List β)
    (P : α → β → Prop) [∀ a b, Decidable (P a b)] (F : α → β → γ) :
    (l₁.flatMap fun a => l₂.filterMap fun b => if P a b then some (F a b) else none)
      = ((l₁ ×ˢ l₂).filter fun q => decide (P q.1 q.2)).map fun q => F q.1 q.2 := by
  induction l₁ with
  | nil => simp
  | cons a l₁ ih =>
    rw [List.flatMap_cons, List.product_cons, List.filter_append, List.map_append, ih]
    congr 1
    rw [filterMap_ite l₂ (P a) (F a), List.filter_map, List.map_map]
    rfl

/-! # Lemmas about peak extraction -/

theorem foldl_flatMap_eq (f : σ → γ → σ) (g : β → List γ) (l : List β) (init : σ) :
    (l.flatMap g).foldl f init = l.foldl (fun st b => (g b).foldl f st) init := by
  induction l generalizing init with
  | nil => rfl
  | cons b l ih => rw [List.flatMap_cons, List.foldl_append, List.foldl_cons, ih]

theorem scan_tile_eq (S : ℕ → ℕ → ℚ) (i j ke le : ℕ) :
    scan_tile S i j ke le = (tile_cells i j ke le).foldl
      (fun st q => if S q.1 q.2 > st.1 then (S q.1 q.2, (q.1 : ℤ), (q.2 : ℤ)) else st)
      (-1, -1, -1) := by
  have hstep : ∀ (st : ℚ × ℤ × ℤ) (k : ℕ),
      ((List.range' j (le - j)).map fun l => (k, l)).foldl
          (fun st q => if S q.1 q.2 > st.1 then (S q.1 q.2, (q.1 : ℤ), (q.2 : ℤ)) else st) st
        = (List.range' j (le - j)).foldl
            (fun st l => if S k l > st.1 then (S k l, (k : ℤ), (l : ℤ)) else st) st := by
    intro st k
    rw [List.foldl_map]
  rw [scan_tile, tile_cells, foldl_flatMap_eq]
  simp only [hstep]

theorem foldl_scan_cases (g : ℕ × ℕ → ℚ) (l : List (ℕ × ℕ)) :
    ∀ best : ℚ × ℤ × ℤ,
      (l.foldl (fun st q => if g q > st.1 then (g q, (q.1 : ℤ), (q.2 : ℤ)) else st) best = best ∧
        ∀ x ∈ l, g x ≤ best.1) ∨
      (∃ pre q post, l = pre ++ q :: post ∧
        l.foldl (fun st q => if g q > st.1 then (g q, (q.1 : ℤ), (q.2 : ℤ)) else st) best
          = (g q, (q.1 : ℤ), (q.2 : ℤ)) ∧
        best.1 < g q ∧ (∀ x ∈ pre, g x < g q) ∧ ∀ x ∈ post, g x ≤ g q) := by
  induction l with
  | nil => exact fun best => Or.inl ⟨rfl, by simp⟩
  | cons x rest ih =>
    intro best
    rw [List.foldl_cons]
    by_cases hx : g x > best.1
    · rw [if_pos hx]
      rcases ih (g x, x.1, x.2) with ⟨h1, h2⟩ | ⟨pre, q, post, heq, hfold, hlt, hpre, hpost⟩
      · exact Or.inr ⟨[], x, rest, by simp, h1, hx, by simp, by simpa using h2⟩
      · refine Or.inr ⟨x :: pre, q, post, by rw [heq]; rfl, hfold, lt_trans hx hlt, ?_, hpost⟩
        intro z hz
        rcases List.mem_cons.mp hz with rfl | hz
        · exact hlt
        · exact hpre z hz
    · rw [if_neg hx]
      rcases ih best with ⟨h1, h2⟩ | ⟨pre, q, post, heq, hfold, hlt, hpre, hpost⟩
      · refine Or.inl ⟨h1, fun z hz => ?_⟩
        rcases List.mem_cons.mp hz with rfl | hz
        · exact le_of_not_lt hx
        · exact h2 z hz
      · refine Or.inr ⟨x :: pre, q, post, by rw [heq]; rfl, hfold, hlt, ?_, hpost⟩
        intro z hz
        rcases List.mem_cons.mp hz with rfl | hz
        · exact lt_of_le_of_lt (le_of_not_lt hx) hlt
        · exact hpre z hz

theorem tile_starts_lt {n W : ℕ} (hW : 1 ≤ W) : ∀ i ∈ tile_starts n W, i < n := by
  intro i hi
  rw [tile_starts, List.mem_range'] at hi
  obtain ⟨t, ht, rfl⟩ := hi
  have h1 : (n + W - 1) / W * W ≤ n + W - 1 := Nat.div_mul_le_self _ _
  have h2 : (t + 1) * W ≤ (n + W - 1) / W * W := Nat.mul_le_mul_right W ht
  have h3 : t * W + W ≤ n + W - 1 := by
    calc t * W + W = (t + 1) * W := by ring
    _ ≤ (n + W - 1) / W * W := h2
    _ ≤ n + W - 1 := h1
  have : W * t = t * W := Nat.mul_comm W t
  omega

theorem mem_tile_cells {i j ke le : ℕ} {q : ℕ × ℕ} :
    q ∈ tile_cells i j ke le ↔ (i ≤ q.1 ∧ q.1 < ke) ∧ j ≤ q.2 ∧ q.2 < le := by
  obtain ⟨k, l⟩ := q
  rw [tile_cells]
  simp only [List.mem_flatMap, List.mem_map, List.mem_range'_1]
  constructor
  · rintro ⟨k', hk', l', hl', h⟩
    injection h with h1 h2
    subst h1
    subst h2
    omega
  · rintro ⟨⟨h1, h2⟩, h3, h4⟩
    exact ⟨k, by omega, l, by omega, rfl⟩

theorem self_mem_tile_cells {i j ke le : ℕ} (hi : i < ke) (hj : j < le) :
    (i, j) ∈ tile_cells i j ke le :=
  mem_tile_cells.mpr ⟨⟨le_refl i, hi⟩, le_refl j, hj⟩

theorem tile_peak_spec {W r c : ℕ} (S : ℕ → ℕ → ℚ) (hW : 1 ≤ W)
    (hS : ∀ k l, k < r → l < c → 0 ≤ S k l) {i j : ℕ} (hi : i < r) (hj : j < c) :
    ∃ p, tile_peak W r c S i j = some p ∧
      is_tile_argmax S i j (min (i + W) r) (min (j + W) c) p := by
  have hike : i < min (i + W) r := lt_min (by omega) hi
  have hjle : j < min (j + W) c := lt_min (by omega) hj
  have hcell : ∀ q ∈ tile_cells i j (min (i + W) r) (min (j + W) c), q.1 < r ∧ q.2 < c := by
    intro q hq
    rw [mem_tile_cells] at hq
    omega
  rcases foldl_scan_cases (fun q => S q.1 q.2)
      (tile_cells i j (min (i + W) r) (min (j + W) c)) (-1, -1, -1) with
    ⟨_, h2⟩ | ⟨pre, q, post, heq, hfold, _, hpre, hpost⟩
  · exfalso
    have hm := self_mem_tile_cells hike hjle
    have := h2 (i, j) hm
    have h0 : (0 : ℚ) ≤ S i j := hS i j hi hj
    simp only at this
    linarith
  · have hq : q ∈ tile_cells i j (min (i + W) r) (min (j + W) c) := by
      rw [heq]
      exact List.mem_append_right _ (List.mem_cons_self _ _)
    have hst : scan_tile S i j (min (i + W) r) (min (j + W) c)
        = (S q.1 q.2, (q.1 : ℤ), (q.2 : ℤ)) := by
      rw [scan_tile_eq]
      exact hfold
    refine ⟨⟨q.1, q.2, S q.1 q.2⟩, ?_, ?_, ?_, pre, post, ?_, ?_⟩
    · rw [tile_peak, hst]
      simp
    · rfl
    · intro x hx
      rw [heq] at hx
      rcases List.mem_append.mp hx with hx | hx
      · exact le_of_lt (hpre x hx)
      · rcases List.mem_cons.mp hx with rfl | hx
        · exact le_refl _
        · exact hpost x hx
    · exact heq
    · exact hpre

theorem length_filterMap_of_isSome (f : β → Option γ) (l : List β)
    (h : ∀ b ∈ l, (f b).isSome) : (l.filterMap f).length = l.length := by
  induction l with
  | nil => rfl
  | cons b l ih =>
    rcases hf : f b with _ | v
    · have := h b (List.mem_cons_self _ _)
      rw [hf] at this
      cases this
    · rw [List.filterMap_cons, hf, List.length_cons,
        ih fun b hb => h b (List.mem_cons_of_mem _ hb), List.length_cons]

theorem length_flatMap_const (f : β → List γ) (l : List β) (m : ℕ)
    (h : ∀ b ∈ l, (f b).length = m) : (l.flatMap f).length = l.length * m := by
  induction l with
  | nil => simp
  | cons b l ih =>
    rw [List.flatMap_cons, List.length_append, h b (List.mem_cons_self _ _),
      ih fun b hb => h b (List.mem_cons_of_mem _ hb), List.length_cons]
    ring

theorem length_max_points {W r c : ℕ} (S : ℕ → ℕ → ℚ) (hW : 1 ≤ W)
    (hS : ∀ k l, k < r → l < c → 0 ≤ S k l) :
    (max_points W r c S).length = num_tiles r c W := by
  rw [max_points]
  rw [length_flatMap_const _ _ ((c + W - 1) / W)]
  · rw [tile_starts, List.length_range', num_tiles]
  · intro i hi
    rw [length_filterMap_of_isSome]
    · rw [tile_starts, List.length_range']
    · intro j hj
      obtain ⟨p, hp, _⟩ :=
        tile_peak_spec S hW hS (tile_starts_lt hW i hi) (tile_starts_lt hW j hj)
      rw [hp]
      rfl

theorem mem_pyslice_from {l : List α} {i : ℤ} {z : α} (h : z ∈ pyslice_from l i) :
    z ∈ l := by
  rw [pyslice_from] at h
  by_cases hi : i < 0
  · rw [if_pos hi] at h
    exact List.mem_of_mem_drop h
  · rw [if_neg hi] at h
    exact List.mem_of_mem_drop h

theorem extract_peaks_mem {W : ℕ} {θ : ℚ} {r c : ℕ} {S : ℕ → ℕ → ℚ} {p : Peak}
    (hW : 1 ≤ W) (hS : ∀ k l, k < r → l < c → 0 ≤ S k l)
    (hp : p ∈ extract_peaks W θ r c S) :
    ∃ i ∈ tile_starts r W, ∃ j ∈ tile_starts c W,
      is_tile_argmax S i j (min (i + W) r) (min (j + W) c) p := by
  rw [extract_peaks] at hp
  have hp2 : p ∈ max_points W r c S := mem_py_sorted.mp (mem_pyslice_from hp)
  rw [max_points, List.mem_flatMap] at hp2
  obtain ⟨i, hi, hp3⟩ := hp2
  rw [List.mem_filterMap] at hp3
  obtain ⟨j, hj, hp4⟩ := hp3
  obtain ⟨p', hp', hargmax⟩ :=
    tile_peak_spec S hW hS (tile_starts_lt hW i hi) (tile_starts_lt hW j hj)
  rw [hp'] at hp4
  injection hp4 with hp4
  exact ⟨i, hi, j, hj, hp4 ▸ hargmax⟩

theorem extract_peaks_sorted (W : ℕ) (θ : ℚ) (r c : ℕ) (S : ℕ → ℕ → ℚ) :
    (extract_peaks W θ r c S).Pairwise (fun a b => a.amp ≤ b.amp) := by
  rw [extract_peaks]
  have hsorted : (py_sorted (fun a b => decide (a.amp ≤ b.amp))
      (max_points W r c S)).Pairwise (fun a b : Peak => a.amp ≤ b.amp) := by
    have := pairwise_py_sorted (fun a b : Peak => decide (a.amp ≤ b.amp))
      (fun a b => by rcases le_total a.amp b.amp with h | h <;> simp [h])
      (fun a b c hab hbc => by
        simp only [decide_eq_true_eq] at hab hbc ⊢
        exact le_trans hab hbc)
      (max_points W r c S)
    exact this.imp fun h => by simpa using h
  rw [pyslice_from]
  by_cases hi : pyint ((((py_sorted (fun a b => decide (a.amp ≤ b.amp))
      (max_points W r c S)).length : ℚ)) * θ) < 0
  · rw [if_pos hi]
    exact hsorted.sublist (List.drop_sublist _ _)
  · rw [if_neg hi]
    exact hsorted.sublist (List.drop_sublist _ _)

theorem length_extract_peaks {W r c : ℕ} {θ : ℚ} (S : ℕ → ℕ → ℚ) (hW : 1 ≤ W)
    (hS : ∀ k l, k < r → l < c → 0 ≤ S k l) (hθ0 : 0 ≤ θ) :
    (extract_peaks W θ r c S).length
      = num_tiles r c W - (⌊(num_tiles r c W : ℚ) * θ⌋).toNat := by
  have hlen : (py_sorted (fun a b => decide (a.amp ≤ b.amp))
      (max_points W r c S)).length = num_tiles r c W := by
    rw [length_py_sorted, length_max_points S hW hS]
  have hnn : (0 : ℚ) ≤ ((num_tiles r c W : ℚ)) * θ :=
    mul_nonneg (by positivity) hθ0
  rw [extract_peaks, hlen, pyint_of_nonneg hnn, pyslice_from_of_nonneg _ (Int.floor_nonneg.mpr hnn),
    List.length_drop, hlen]

/-! # Lemmas about the fuzzy hash -/

theorem make_fuzzy_hash_eq (f1 f2 dt : ℚ) :
    make_fuzzy_hash f1 f2 dt =
      ⌊dt / FUZ_DT_S⌋ * 10 ^ 6 + ⌊f2 / FUZ_F_HZ⌋ * 10 ^ 3 + ⌊f1 / FUZ_F_HZ⌋ := by
  have key : ∀ v w : ℚ, w ≠ 0 → ⌊(v - pymod v w) / w⌋ = ⌊v / w⌋ := by
    intro v w hw
    have h1 : v - pymod v w = w * ⌊v / w⌋ := by
      rw [pymod]
      ring
    rw [h1, mul_comm, mul_div_assoc, div_self hw, mul_one, Int.floor_intCast]
  show ⌊(dt - pymod dt FUZ_DT_S) / FUZ_DT_S⌋ * 10 ^ 6
      + ⌊(f2 - pymod f2 FUZ_F_HZ) / FUZ_F_HZ⌋ * 10 ^ 3
      + ⌊(f1 - pymod f1 FUZ_F_HZ) / FUZ_F_HZ⌋ = _
  rw [key f1 _ (by norm_num [FUZ_F_HZ]), key f2 _ (by norm_num [FUZ_F_HZ]),
    key dt _ (by norm_num [FUZ_DT_S])]

/-! # Lemmas about insertion into the index -/

theorem save_to_db_eq_dd_extend (hashes : List HashRecord) (fps : Postings) :
    save_to_db hashes fps
      = dd_extend fps (hashes.map fun h => (h.digest, (h.audio_id, h.anchor_time))) := by
  rw [save_to_db, dd_extend, List.foldl_map]

theorem save_to_db_postings (hashes : List HashRecord) (fps : Postings) (d : ℤ) :
    (alist_get (save_to_db hashes fps) d).getD []
      = (alist_get fps d).getD []
        ++ (hashes.filter fun h => decide (h.digest = d)).map
            fun h => (h.audio_id, h.anchor_time) := by
  rw [save_to_db_eq_dd_extend, alist_get_dd_extend]
  congr 1
  rw [votes_at, List.filterMap_map,
    ← filterMap_ite hashes (fun h => h.digest = d) fun h => (h.audio_id, h.anchor_time)]
  rfl

theorem add_fingerprints_fingerprints (db : Database) (hashes : List HashRecord)
    (aid : ℤ) (md : Option Md) :
    (add_fingerprints db hashes aid md).fingerprints
      = save_to_db hashes db.fingerprints := by
  rw [add_fingerprints.eq_def, save_to_db]
  rcases md with _ | m
  · rfl
  · by_cases h : m = [] <;> simp [h]

/-! # Lemmas about the result computations -/

theorem confidence_props_counter {l : List ℤ} (hl : l ≠ []) :
    confidence_props l ((counter l).map fun p =>
      (p.1, (p.2 : ℚ) / ((((counter l).map (·.2)).sum : ℕ) : ℚ))) := by
  have hlen : 0 < l.length := List.length_pos.mpr hl
  have hts : ((counter l).map (·.2)).sum = l.length := counter_sum l
  refine ⟨hl, ?_, ?_⟩
  · intro p hp
    rw [List.mem_map] at hp
    obtain ⟨q, hq, rfl⟩ := hp
    obtain ⟨hcount, hmem⟩ := counter_mem (show (q.1, q.2) ∈ counter l by simpa using hq)
    have hcl : (q.2 : ℚ) ≤ (l.length : ℚ) := by
      rw [hcount]
      exact_mod_cast List.count_le_length q.1 l
    refine ⟨?_, ?_, ?_, hmem⟩
    · rw [hts, hcount]
    · exact div_nonneg (Nat.cast_nonneg _) (Nat.cast_nonneg _)
    · rw [hts]
      exact div_le_one_of_le₀ hcl (Nat.cast_nonneg _)
  · have h1 : (((counter l).map fun p =>
        (p.1, (p.2 : ℚ) / ((((counter l).map (·.2)).sum : ℕ) : ℚ))).map (·.2))
        = ((counter l).map (·.2)).map
            fun n : ℕ => (n : ℚ) / ((((counter l).map (·.2)).sum : ℕ) : ℚ) := by
      rw [List.map_map, List.map_map]
      rfl
    rw [h1, sum_map_cast_div, hts]
    exact div_self (by exact_mod_cast hlen.ne')

theorem confidence_props_of_perm {l : List ℤ} {res res' : List (ℤ × ℚ)}
    (hperm : res'.Perm res) (h : confidence_props l res) : confidence_props l res' := by
  obtain ⟨h1, h2, h3⟩ := h
  refine ⟨h1, fun p hp => h2 p (hperm.mem_iff.mp hp), ?_⟩
  rw [← h3]
  exact (hperm.map (·.2)).sum_eq

theorem query_result_eq_some {mm : VoteMap} {k : ℤ}
    (hne : mm ≠ []) (hmax : py_max_by_len mm = some k) :
    query_result mm = some (py_sorted (fun a b => decide (b.2 ≤ a.2))
      ((counter ((alist_get mm k).getD [])).map fun p =>
        (p.1, (p.2 : ℚ)
          / ((((counter ((alist_get mm k).getD [])).map (·.2)).sum : ℕ) : ℚ)))) := by
  rw [query_result, if_neg hne, hmax]

theorem evaluate_result_eq_some {mm : VoteMap} {k : ℤ} {n : ℕ}
    (h : eval_max mm = (some k, n)) (hn : n ≠ 0) :
    evaluate_result mm = some
      ((counter ((alist_get mm k).getD [])).map fun p =>
        (p.1, (p.2 : ℚ)
          / ((((counter ((alist_get mm k).getD [])).map (·.2)).sum : ℕ) : ℚ))) := by
  rw [evaluate_result, h]
  show (if n = 0 ∨ (some k : Option ℤ) = none then (none : Option (List (ℤ × ℚ)))
    else some ((counter ((alist_get mm k).getD [])).map fun p =>
      (p.1, (p.2 : ℚ)
        / ((((counter ((alist_get mm k).getD [])).map (·.2)).sum : ℕ) : ℚ)))) = _
  rw [if_neg (by simp [hn])]

/-! # The claims

Concrete witnesses and counterexamples evaluate rational arithmetic, so
the arithmetic on `ℚ` is made unfoldable for the kernel from here on. -/

attribute [local semireducible] Rat.mul Rat.inv Rat.add Rat.sub Rat.ofScientific

set_option maxRecDepth 100000

/-- C10: for every index state and query list, `FingerprintDatabase.query`
and `evaluate` leave the database — digest-to-postings map and metadata —
unchanged; in particular the guarded `defaultdict` accesses never
materialize an empty posting list for an absent digest. -/
theorem claim_C10 (db : Database) (fps : Postings) (qs qs' : List HashRecord) :
    (query db qs).1 = db ∧ (evaluate qs' fps).1 = fps := by
  constructor
  · rcases db with ⟨f, m⟩
    rw [query]
    simp only [query_collect_fst]
  · rw [evaluate]
    simp only [evaluate_collect_eq, query_collect_fst]

/-- C9: `save_to_db` and `FingerprintDatabase.add_fingerprints` append
each record's `(audio_id, anchor_time)` to its digest's posting list in
record order with no deduplication; every digest's prior posting list is
a prefix of its new posting list, and re-inserting the same records
appends the same postings a second time. -/
theorem claim_C9 (db : Database) (fps : Postings) (hashes : List HashRecord)
    (aid : ℤ) (md : Option Md) (d : ℤ) :
    ((alist_get (save_to_db hashes fps) d).getD []
        = (alist_get fps d).getD []
          ++ (hashes.filter fun h => decide (h.digest = d)).map
              (fun h => (h.audio_id, h.anchor_time)))
      ∧ ((alist_get (add_fingerprints db hashes aid md).fingerprints d).getD []
        = (alist_get db.fingerprints d).getD []
          ++ (hashes.filter fun h => decide (h.digest = d)).map
              (fun h => (h.audio_id, h.anchor_time)))
      ∧ (∃ t, (alist_get (add_fingerprints db hashes aid md).fingerprints d).getD []
          = (alist_get db.fingerprints d).getD [] ++ t)
      ∧ ((alist_get (save_to_db hashes (save_to_db hashes fps)) d).getD []
        = (alist_get fps d).getD []
          ++ (hashes.filter fun h => decide (h.digest = d)).map
              (fun h => (h.audio_id, h.anchor_time))
          ++ (hashes.filter fun h => decide (h.digest = d)).map
              (fun h => (h.audio_id, h.anchor_time))) := by
  refine ⟨save_to_db_postings .., ?_, ?_, ?_⟩
  · rw [add_fingerprints_fingerprints]
    exact save_to_db_postings ..
  · exact ⟨_, by rw [add_fingerprints_fingerprints]; exact save_to_db_postings ..⟩
  · rw [save_to_db_postings hashes (save_to_db hashes fps) d, save_to_db_postings hashes fps d]

/-- C5 (corrected): on an empty (zero-element) spectrogram, neither
extraction routine reports a designed invalid-input error — no
`EmptyInputError`/`InvalidInputError` exists in the code.
`extract_peaks` returns the empty list (a normal result) and
`compute_constellations` raises an unhandled `IndexError` from
`len(spectrogram[0])`. -/
theorem claim_C5 (W W' : ℕ) (θ : ℚ) (S : ℕ → ℕ → ℚ) :
    extract_peaks W θ 0 0 S = []
      ∧ compute_constellations [] W' = .error .indexError := by
  constructor
  · have hts : tile_starts 0 W = [] := by
      rw [tile_starts]
      rcases W with _ | W
      · rfl
      · rw [Nat.div_eq_of_lt (by omega)]
        rfl
    rw [extract_peaks, max_points, hts]
    simp [py_sorted, pyslice_from]
  · rfl

/-- C5, counterexample to the claim as stated: the all-zero `0 × 0`
spectrogram is empty, yet `extract_peaks` returns a result (the empty
peak list) instead of reporting an error. -/
theorem claim_C5_cex :
    extract_peaks 15 (1/5) 0 0 (fun _ _ => 0) = []
      ∧ compute_constellations ([] : List (List ℚ)) 15 = .error .indexError :=
  ⟨by decide, rfl⟩

/-- C2 (corrected): both matchers bucket each matching posting at offset
`int(db_anchor_time - query_anchor_time)` — Python `int()`, i.e.
truncation toward zero, which agrees with `floor` only for nonnegative
differences.  The offset histogram at bucket `k` holds exactly the
vote-stream entries whose truncated offset is `k`, and `evaluate`'s
collection loop is the same function as `query`'s. -/
theorem claim_C2 (fps : Postings) (qs : List HashRecord) (k : ℤ) (t : ℚ) :
    (alist_get (query_collect fps qs).2 k).getD [] = votes_at (offset_votes fps qs) k
      ∧ evaluate_collect fps qs = query_collect fps qs
      ∧ (0 ≤ t → pyint t = ⌊t⌋) :=
  ⟨query_collect_votes_at fps qs k, evaluate_collect_eq fps qs,
    fun h => pyint_of_nonneg h⟩

/-- C2, witness: a concrete database and query record exercising the
bucket characterization, and the truncation/floor agreement at the
nonnegative offset `3/2`. -/
theorem claim_C2_w :
    ((alist_get (query_collect [(42, [(1, 10)])] [⟨42, 9, 4⟩]).2 6).getD []
        = votes_at (offset_votes [(42, [(1, 10)])] [⟨42, 9, 4⟩]) 6
      ∧ evaluate_collect [(42, [(1, 10)])] [⟨42, 9, 4⟩]
        = query_collect [(42, [(1, 10)])] [⟨42, 9, 4⟩]
      ∧ pyint (3/2) = ⌊(3/2 : ℚ)⌋)
      ∧ (alist_get (query_collect [(42, [(1, 10)])] [⟨42, 9, 4⟩]).2 6).getD [] = [1] := by
  obtain ⟨h1, h2, h3⟩ := claim_C2 [(42, [(1, 10)])] [⟨42, 9, 4⟩] 6 (3/2)
  exact ⟨⟨h1, h2, h3 (by decide)⟩, by decide⟩

/-- C2, counterexample to the claim as stated: a posting at time `0`
matched by a query anchored at `3/2` has difference `-3/2`; the code
buckets the vote at `int(-3/2) = -1`, not at `floor(-3/2) = -2`. -/
theorem claim_C2_cex :
    (query_collect [(42, [(1, 0)])] [⟨42, 9, 3/2⟩]).2 = [(-1, [1])]
      ∧ ⌊((0 : ℚ) - 3/2)⌋ = -2 ∧ ((-1 : ℤ) ≠ -2) :=
  ⟨by decide, by decide, by decide⟩

theorem query_result_ne_nil {mm : VoteMap} (hmm : mm ≠ [])
    (hnodup : (mm.map (·.1)).Nodup) (hvals : ∀ p ∈ mm, p.2 ≠ []) :
    ∃ res, query_result mm = some res ∧ res ≠ [] := by
  obtain ⟨k, v, hmax, hkv⟩ := py_max_by_len_of_ne_nil hmm
  have hget : alist_get mm k = some v := alist_get_of_mem_of_nodup hnodup hkv
  have hvne : v ≠ [] := hvals (k, v) hkv
  have hL : (alist_get mm k).getD [] = v := by
    rw [hget]
    rfl
  refine ⟨_, query_result_eq_some hmm hmax, fun hnil => ?_⟩
  have hlen := length_py_sorted (fun a b : ℤ × ℚ => decide (b.2 ≤ a.2))
    ((counter ((alist_get mm k).getD [])).map fun p =>
      (p.1, (p.2 : ℚ) / ((((counter ((alist_get mm k).getD [])).map (·.2)).sum : ℕ) : ℚ)))
  rw [hnil, List.length_map, hL] at hlen
  exact counter_ne_nil hvne (List.length_eq_zero.mp hlen.symm)

theorem evaluate_result_ne_nil {mm : VoteMap} (hmm : mm ≠ [])
    (hnodup : (mm.map (·.1)).Nodup) (hvals : ∀ p ∈ mm, p.2 ≠ []) :
    ∃ res, evaluate_result mm = some res ∧ res ≠ [] := by
  obtain ⟨kv0, hkv0⟩ := List.exists_mem_of_ne_nil mm hmm
  have h1 : 1 ≤ kv0.2.length := List.length_pos.mpr (hvals kv0 hkv0)
  have hml1 : 1 ≤ (eval_max mm).2 :=
    le_trans h1 ((eval_max_snd_ge mm (none, 0)).2 kv0 hkv0)
  rcases hmax : eval_max mm with ⟨mk, ml⟩
  have hml : ml ≠ 0 := by
    rw [hmax] at hml1
    omega
  obtain ⟨k, rfl⟩ : ∃ k, mk = some k := by
    rcases eval_max_fold_cases mm (none, 0) with h | ⟨kv, _, h⟩
    · rw [eval_max, h] at hmax
      injection hmax with h2 h3
      exact absurd h3.symm hml
    · rw [eval_max, h] at hmax
      injection hmax with h2 h3
      exact ⟨kv.1, h2.symm⟩
  obtain ⟨kv', hkv', hk1, hk2⟩ := eval_max_key_mem hmax
  have hv : (k, kv'.2) ∈ mm := by
    rw [← hk1]
    simpa using hkv'
  have hget : alist_get mm k = some kv'.2 := alist_get_of_mem_of_nodup hnodup hv
  have hvne : kv'.2 ≠ [] := hvals (k, kv'.2) hv
  have hL : (alist_get mm k).getD [] = kv'.2 := by
    rw [hget]
    rfl
  refine ⟨_, evaluate_result_eq_some hmax hml, fun hnil => ?_⟩
  rw [List.map_eq_nil_iff, hL] at hnil
  exact counter_ne_nil hvne hnil

/-- C6: a query none of whose digests has a posting yields the
distinguished `None` result from both matchers; a query at least one of
whose digests has a posting yields `Some` of a non-empty result list. -/
theorem claim_C6 (db : Database) (fps : Postings) (qs qs' : List HashRecord) :
    ((∀ q ∈ qs, (alist_get db.fingerprints q.digest).getD [] = []) →
        (query db qs).2 = none)
      ∧ ((∃ q ∈ qs, (alist_get db.fingerprints q.digest).getD [] ≠ []) →
        ∃ res, (query db qs).2 = some res ∧ res ≠ [])
      ∧ ((∀ q ∈ qs', (alist_get fps q.digest).getD [] = []) →
        (evaluate qs' fps).2 = none)
      ∧ ((∃ q ∈ qs', (alist_get fps q.digest).getD [] ≠ []) →
        ∃ res, (evaluate qs' fps).2 = some res ∧ res ≠ []) := by
  have hq : (query db qs).2 = query_result (query_collect db.fingerprints qs).2 := rfl
  have he : (evaluate qs' fps).2 = evaluate_result (evaluate_collect fps qs').2 := rfl
  refine ⟨?_, ?_, ?_, ?_⟩
  · intro h
    have hv : offset_votes db.fingerprints qs = [] := (offset_votes_eq_nil_iff ..).mpr h
    have hmm : (query_collect db.fingerprints qs).2 = [] :=
      (query_collect_snd_eq_nil_iff ..).mpr hv
    rw [hq, hmm]
    rfl
  · intro h
    have hv : offset_votes db.fingerprints qs ≠ [] := by
      intro hv
      obtain ⟨q, hq', hne⟩ := h
      exact hne ((offset_votes_eq_nil_iff ..).mp hv q hq')
    have hmm : (query_collect db.fingerprints qs).2 ≠ [] :=
      fun hmm => hv ((query_collect_snd_eq_nil_iff ..).mp hmm)
    rw [hq]
    exact query_result_ne_nil hmm (query_collect_keys_nodup ..)
      (query_collect_values_ne_nil db.fingerprints qs)
  · intro h
    have hv : offset_votes fps qs' = [] := (offset_votes_eq_nil_iff ..).mpr h
    have hmm : (evaluate_collect fps qs').2 = [] := by
      rw [evaluate_collect_eq]
      exact (query_collect_snd_eq_nil_iff ..).mpr hv
    rw [he, hmm]
    rfl
  · intro h
    have hv : offset_votes fps qs' ≠ [] := by
      intro hv
      obtain ⟨q, hq', hne⟩ := h
      exact hne ((offset_votes_eq_nil_iff ..).mp hv q hq')
    have hmm : (evaluate_collect fps qs').2 ≠ [] := by
      rw [evaluate_collect_eq]
      exact fun hmm => hv ((query_collect_snd_eq_nil_iff ..).mp hmm)
    rw [he]
    refine evaluate_result_ne_nil hmm ?_ ?_
    · rw [evaluate_collect_eq]
      exact query_collect_keys_nodup ..
    · rw [evaluate_collect_eq]
      exact query_collect_values_ne_nil fps qs'

/-- C6, witness: a concrete index with one posting; an all-absent-digest
query returns `None` from both matchers, and a present-digest query
returns a non-empty `Some` from both. -/
theorem claim_C6_w :
    (query ⟨[(12345, [(1, 10)])], []⟩ [⟨99999, 9, 5⟩]).2 = none
      ∧ (∃ res, (query ⟨[(12345, [(1, 10)])], []⟩ [⟨12345, 9, 5⟩]).2 = some res ∧ res ≠ [])
      ∧ (evaluate [⟨99999, 9, 5⟩] [(12345, [(1, 10)])]).2 = none
      ∧ (∃ res, (evaluate [⟨12345, 9, 5⟩] [(12345, [(1, 10)])]).2 = some res ∧ res ≠ []) :=
  ⟨(claim_C6 ⟨[(12345, [(1, 10)])], []⟩ [(12345, [(1, 10)])]
      [⟨99999, 9, 5⟩] [⟨99999, 9, 5⟩]).1 (by decide),
    (claim_C6 ⟨[(12345, [(1, 10)])], []⟩ [(12345, [(1, 10)])]
      [⟨12345, 9, 5⟩] [⟨12345, 9, 5⟩]).2.1 (by decide),
    (claim_C6 ⟨[(12345, [(1, 10)])], []⟩ [(12345, [(1, 10)])]
      [⟨99999, 9, 5⟩] [⟨99999, 9, 5⟩]).2.2.1 (by decide),
    (claim_C6 ⟨[(12345, [(1, 10)])], []⟩ [(12345, [(1, 10)])]
      [⟨12345, 9, 5⟩] [⟨12345, 9, 5⟩]).2.2.2 (by decide)⟩

/-- C3: whenever a matcher returns a result list, each returned pair's
confidence is that source's votes at the winning offset divided by the
total votes there, every confidence lies in `[0, 1]`, only sources voted
at the winning offset appear, and the confidences sum to `1` — for
`FingerprintDatabase.query` and for `evaluate`. -/
theorem claim_C3 :
    (∀ (db : Database) (qs : List HashRecord) (res : List (ℤ × ℚ)) (k : ℤ),
        (query db qs).2 = some res →
        py_max_by_len (query_collect db.fingerprints qs).2 = some k →
        confidence_props
          ((alist_get (query_collect db.fingerprints qs).2 k).getD []) res)
      ∧ (∀ (fps : Postings) (qs : List HashRecord) (res : List (ℤ × ℚ)) (k : ℤ) (n : ℕ),
        (evaluate qs fps).2 = some res →
        eval_max (evaluate_collect fps qs).2 = (some k, n) →
        confidence_props
          ((alist_get (evaluate_collect fps qs).2 k).getD []) res) := by
  constructor
  · intro db qs res k hres hmax
    have hq : (query db qs).2 = query_result (query_collect db.fingerprints qs).2 := rfl
    rw [hq] at hres
    have hne : (query_collect db.fingerprints qs).2 ≠ [] := by
      intro h
      rw [h] at hres
      simp [query_result] at hres
    rw [query_result_eq_some hne hmax] at hres
    injection hres with hres
    obtain ⟨v, hv⟩ := py_max_by_len_mem hmax
    have hget : alist_get (query_collect db.fingerprints qs).2 k = some v :=
      alist_get_of_mem_of_nodup (query_collect_keys_nodup db.fingerprints qs) hv
    have hvne : v ≠ [] := query_collect_values_ne_nil db.fingerprints qs (k, v) hv
    have hl : (alist_get (query_collect db.fingerprints qs).2 k).getD [] = v := by
      rw [hget]
      rfl
    have hbase := confidence_props_counter
      (l := (alist_get (query_collect db.fingerprints qs).2 k).getD [])
      (by rw [hl]; exact hvne)
    subst hres
    exact confidence_props_of_perm (py_sorted_perm _ _) hbase
  · intro fps qs res k n hres hmax
    have he : (evaluate qs fps).2 = evaluate_result (evaluate_collect fps qs).2 := rfl
    rw [he] at hres
    have hn : n ≠ 0 := by
      rintro rfl
      have h0 : evaluate_result (evaluate_collect fps qs).2 = none := by
        rw [evaluate_result, hmax]
        rfl
      rw [h0] at hres
      cases hres
    rw [evaluate_result_eq_some hmax hn] at hres
    injection hres with hres
    obtain ⟨kv, hkv, hk1, hk2⟩ := eval_max_key_mem hmax
    have hv : (k, kv.2) ∈ (evaluate_collect fps qs).2 := by
      rw [← hk1]
      simpa using hkv
    have hget : alist_get (evaluate_collect fps qs).2 k = some kv.2 := by
      rw [evaluate_collect_eq] at hv ⊢
      exact alist_get_of_mem_of_nodup (query_collect_keys_nodup fps qs) hv
    have hvne : kv.2 ≠ [] := by
      rw [evaluate_collect_eq] at hv
      exact query_collect_values_ne_nil fps qs (k, kv.2) hv
    have hl : (alist_get (evaluate_collect fps qs).2 k).getD [] = kv.2 := by
      rw [hget]
      rfl
    subst hres
    exact confidence_props_counter (by rw [hl]; exact hvne)

/-- C3, witness: the regression scenario of the repository's tests — one
song, two matching digests at a constant `+5 s` shift plus one noise
digest — where both matchers return `[(1, 1.0)]` and the winning offset
`5` holds the votes `[1, 1]`. -/
theorem claim_C3_w :
    confidence_props
        ((alist_get (query_collect [(12345, [(1, 10)]), (67890, [(1, 20)])]
          [⟨12345, 999, 5⟩, ⟨67890, 999, 15⟩, ⟨11111, 999, 30⟩]).2 5).getD [])
        [(1, 1)]
      ∧ confidence_props
        ((alist_get (evaluate_collect [(12345, [(1, 10)]), (67890, [(1, 20)])]
          [⟨12345, 999, 5⟩, ⟨67890, 999, 15⟩, ⟨11111, 999, 30⟩]).2 5).getD [])
        [(1, 1)] :=
  ⟨claim_C3.1 ⟨[(12345, [(1, 10)]), (67890, [(1, 20)])], []⟩
      [⟨12345, 999, 5⟩, ⟨67890, 999, 15⟩, ⟨11111, 999, 30⟩] [(1, 1)] 5
      (by decide) (by decide),
    claim_C3.2 [(12345, [(1, 10)]), (67890, [(1, 20)])]
      [⟨12345, 999, 5⟩, ⟨67890, 999, 15⟩, ⟨11111, 999, 30⟩] [(1, 1)] 5 2
      (by decide) (by decide)⟩

/-- C4 (corrected): `FingerprintDatabase.query` returns its pairs sorted
by confidence descending (`reverse=True` stable sort); the ascending
`source_id` tie-break the claim asserts does not exist — equal
confidences keep first-encountered order — and `evaluate` does not sort
at all. -/
theorem claim_C4 (db : Database) (qs : List HashRecord) (res : List (ℤ × ℚ))
    (h : (query db qs).2 = some res) :
    res.Pairwise fun a b => b.2 ≤ a.2 := by
  have hq : (query db qs).2 = query_result (query_collect db.fingerprints qs).2 := rfl
  rw [hq, query_result] at h
  by_cases hne : (query_collect db.fingerprints qs).2 = []
  · rw [if_pos hne] at h
    cases h
  · rw [if_neg hne] at h
    rcases hmax : py_max_by_len (query_collect db.fingerprints qs).2 with _ | k
    · rw [hmax] at h
      cases h
    · rw [hmax] at h
      injection h with h
      subst h
      have hpw := pairwise_py_sorted (fun a b : ℤ × ℚ => decide (b.2 ≤ a.2))
        (fun a b => by rcases le_total b.2 a.2 with h | h <;> simp [h])
        (fun a b c hab hbc => by
          simp only [decide_eq_true_eq] at hab hbc ⊢
          exact le_trans hbc hab)
        ((counter ((alist_get (query_collect db.fingerprints qs).2 k).getD [])).map
          fun p => (p.1, (p.2 : ℚ)
            / ((((counter ((alist_get (query_collect db.fingerprints qs).2 k).getD
                [])).map (·.2)).sum : ℕ) : ℚ)))
      exact hpw.imp fun h => by simpa using h

/-- C4, witness: two sources with distinct vote shares at the winning
offset; the returned list `[(2, 2/3), (5, 1/3)]` is sorted by confidence
descending. -/
theorem claim_C4_w :
    (query ⟨[(7, [(5, 0), (2, 0), (2, 0)])], []⟩ [⟨7, 9, 0⟩]).2
        = some [(2, 2/3), (5, 1/3)]
      ∧ ([((2 : ℤ), (2 : ℚ)/3), (5, 1/3)].Pairwise fun a b => b.2 ≤ a.2) := by
  have h : (query ⟨[(7, [(5, 0), (2, 0), (2, 0)])], []⟩ [⟨7, 9, 0⟩]).2
      = some [(2, 2/3), (5, 1/3)] := by decide
  exact ⟨h, claim_C4 _ _ _ h⟩

/-- C4, counterexample to the claim as stated: with equal confidences,
`query` keeps first-encountered order — source `5` precedes source `2` —
instead of ascending `source_id`; and `evaluate` returns its pairs
unsorted — `(1, 1/3)` precedes `(2, 2/3)`. -/
theorem claim_C4_cex :
    ((query ⟨[(7, [(5, 0), (2, 0)])], []⟩ [⟨7, 9, 0⟩]).2 = some [(5, 1/2), (2, 1/2)]
      ∧ ¬((5 : ℤ) ≤ 2))
    ∧ ((evaluate [⟨7, 9, 0⟩] [(7, [(1, 0), (2, 0), (2, 0)])]).2
        = some [(1, 1/3), (2, 2/3)]
      ∧ ¬((2 : ℚ)/3 ≤ 1/3)) :=
  ⟨⟨by decide, by decide⟩, ⟨by decide, by decide⟩⟩

/-- C1 (corrected): `AudioFingerprinter.generate_fingerprints` emits a
hash record for the ordered pair of distinct peaks `(x, y)` iff
`0 < time_diff ≤ T`; `create_fingerprint` in `fingerprint.py` checks only
`time_diff ≤ T`, so it also emits records for pairs with
`time_diff ≤ 0`. -/
theorem claim_C1 (tw : ℚ) (peaks : List Peak) (times freqs : ℕ → ℚ) (aid : ℤ) :
    generate_fingerprints tw peaks times freqs aid
        = pair_records (fun d => 0 < d ∧ d ≤ tw) peaks times freqs aid
      ∧ create_fingerprint tw peaks times freqs aid
        = pair_records (fun d => d ≤ tw) peaks times freqs aid := by
  constructor
  · rw [generate_fingerprints]
    simp only [ite_ite_none]
    rw [flatMap_filterMap_product (peaks.enum) (peaks.enum)
      (fun x y => x.1 ≠ y.1 ∧
        (0 < times y.2.ti - times x.2.ti ∧ times y.2.ti - times x.2.ti ≤ tw))
      (fun x y => HashRecord.mk (make_fuzzy_hash (freqs x.2.fi) (freqs y.2.fi)
        (times y.2.ti - times x.2.ti)) aid (times x.2.ti))]
    rfl
  · rw [create_fingerprint]
    simp only [ite_ite_none]
    rw [flatMap_filterMap_product (peaks.enum) (peaks.enum)
      (fun x y => x.1 ≠ y.1 ∧ times y.2.ti - times x.2.ti ≤ tw)
      (fun x y => HashRecord.mk (make_fuzzy_hash (freqs x.2.fi) (freqs y.2.fi)
        (times y.2.ti - times x.2.ti)) aid (times x.2.ti))]
    rfl

/-- C1, counterexample to the claim as stated: two peaks at times `0` and
`10` with window `T = 5`.  The two ordered pairs have elapsed times `10`
(`> T`) and `-10` (`≤ 0`), so the claim demands that no hash record be
produced; `generate_fingerprints` indeed emits none, but
`create_fingerprint` emits a record for the `time_diff = -10` pair. -/
theorem claim_C1_cex :
    ((10 : ℚ) - 0 > 5) ∧ ((0 : ℚ) - 10 ≤ 0)
      ∧ create_fingerprint 5 [⟨0, 0, 1⟩, ⟨0, 1, 1⟩]
          (fun j => if j = 0 then 0 else 10) (fun _ => 100) 7 ≠ []
      ∧ generate_fingerprints 5 [⟨0, 0, 1⟩, ⟨0, 1, 1⟩]
          (fun j => if j = 0 then 0 else 10) (fun _ => 100) 7 = [] :=
  ⟨by decide, by decide, by decide, by decide⟩

/-- C8 (corrected): the fuzzy hash is invariant under a perturbation
`(ε, ε, δ)` whenever each component stays inside its quantization
bucket — which half-bucket perturbations need not do near a bucket
boundary (see the counterexample); the spec's concrete example does
hold (see the witness).  Bucket preservation is sufficient only, not
necessary: the fixed-radix packing can collide across distinct bucket
triples (e.g. shifting the buckets from `(1000, 999, 0)` to
`(0, 0, 1)` leaves the digest at `10^6`). -/
theorem claim_C8 (f1 f2 dt ε δ : ℚ)
    (h1 : ⌊(f1 + ε) / FUZ_F_HZ⌋ = ⌊f1 / FUZ_F_HZ⌋)
    (h2 : ⌊(f2 + ε) / FUZ_F_HZ⌋ = ⌊f2 / FUZ_F_HZ⌋)
    (h3 : ⌊(dt + δ) / FUZ_DT_S⌋ = ⌊dt / FUZ_DT_S⌋) :
    make_fuzzy_hash (f1 + ε) (f2 + ε) (dt + δ) = make_fuzzy_hash f1 f2 dt := by
  rw [make_fuzzy_hash_eq, make_fuzzy_hash_eq, h1, h2, h3]

/-- C8, witness: the spec's example instance — bucket widths 20 Hz and
0.02 s give `hash(440.0, 880.0, 1.01) = hash(441.0, 881.0, 1.011)`. -/
theorem claim_C8_w :
    (440 + 1 : ℚ) = 441 ∧ (880 + 1 : ℚ) = 881
      ∧ (101/100 + 1/1000 : ℚ) = 1011/1000
      ∧ make_fuzzy_hash (440 + 1) (880 + 1) (101/100 + 1/1000)
        = make_fuzzy_hash 440 880 (101/100) :=
  ⟨by decide, by decide, by decide,
    claim_C8 440 880 (101/100) 1 (1/1000) (by decide) (by decide) (by decide)⟩

/-- C8, counterexample to the claim as stated: `(f1, f2, Δt) = (15, 15, 1.01)`
has nonnegative components, and `ε = 10` (exactly half the 20 Hz bucket)
with `δ = 0` satisfies the claim's bounds, yet the perturbation crosses
the 20 Hz bucket boundary and the digests differ. -/
theorem claim_C8_cex :
    (0 : ℚ) ≤ 15 ∧ (0 : ℚ) ≤ 101/100
      ∧ |(10 : ℚ)| ≤ FUZ_F_HZ / 2 ∧ |(0 : ℚ)| ≤ FUZ_DT_S / 2
      ∧ make_fuzzy_hash (15 + 10) (15 + 10) (101/100 + 0)
        ≠ make_fuzzy_hash 15 15 (101/100) :=
  ⟨by decide, by decide, by decide, by decide, by decide⟩

/-- C7: on a non-empty magnitude spectrogram, with a positive tile size
and a discard fraction in `[0, 1]`, `extract_peaks` selects per
non-overlapping clipped tile the row-major-first maximum cell, sorts the
candidates by amplitude ascending, drops the first `floor(N·θ)`, and
returns the remainder in that ascending order; with discard fraction
`0.4` on candidate amplitudes `[1, 2, 8, 5, 10]` exactly the three
highest-amplitude peaks survive (for `extract_peaks` and for
`filter_constellation`). -/
theorem claim_C7 :
    (∀ (W : ℕ) (θ : ℚ) (r c : ℕ) (S : ℕ → ℕ → ℚ),
        1 ≤ W → 1 ≤ r → 1 ≤ c → 0 ≤ θ → θ ≤ 1 →
        (∀ k l, k < r → l < c → 0 ≤ S k l) →
        extract_peaks_spec_props W θ r c S)
      ∧ (extract_peaks 1 (2/5) 1 5 (fun _ j => [1, 2, 8, 5, 10].getD j 0)
          = [⟨0, 3, 5⟩, ⟨0, 2, 8⟩, ⟨0, 4, 10⟩]
        ∧ filter_constellation
            [⟨10, 20, 1⟩, ⟨20, 30, 5⟩, ⟨30, 40, 10⟩, ⟨40, 50, 2⟩, ⟨50, 60, 8⟩] (2/5)
          = [⟨20, 30, 5⟩, ⟨50, 60, 8⟩, ⟨30, 40, 10⟩]) := by
  constructor
  · intro W θ r c S hW hr hc hθ0 hθ1 hS
    have hN : (max_points W r c S).length = num_tiles r c W := length_max_points S hW hS
    have hnn : (0 : ℚ) ≤ (num_tiles r c W : ℚ) * θ := mul_nonneg (by positivity) hθ0
    refine ⟨?_, extract_peaks_sorted .., hN, length_extract_peaks S hW hS hθ0, ?_,
      fun p hp => extract_peaks_mem hW hS hp⟩
    · rw [extract_peaks, length_py_sorted, hN, pyint_of_nonneg hnn,
        pyslice_from_of_nonneg _ (Int.floor_nonneg.mpr hnn)]
    · rw [Int.toNat_le]
      calc ⌊(num_tiles r c W : ℚ) * θ⌋ ≤ ⌊((num_tiles r c W : ℕ) : ℚ)⌋ :=
            Int.floor_le_floor (mul_le_of_le_one_right (by positivity) hθ1)
        _ = num_tiles r c W := Int.floor_natCast _
  · exact ⟨by decide, by decide⟩

/-- C7, witness: the specification-style properties instantiated on the
concrete `1 × 1` all-ones spectrogram with window `1` and discard
fraction `0.4`. -/
theorem claim_C7_w : extract_peaks_spec_props 1 (2/5) 1 1 (fun _ _ => 1) :=
  claim_C7.1 1 (2/5) 1 1 (fun _ _ => 1) (by decide) (by decide) (by decide)
    (by decide) (by decide) (fun _ _ _ _ => zero_le_one)

end AF
